import Mathlib

/-!
Verification of the DOF-management core of `fem/fespace.cpp`
(`FiniteElementSpace`): signed-DOF encoding, component (vdof) mapping,
marker/list conversions, dependency collection (`AddDependencies`),
the conforming-interpolation build (`BuildConformingInterpolation`),
variable-order mask propagation (`CalcEdgeFaceVarOrders`), entity DOF
lookup sentinels (`GetEdgeDofs` / `GetFaceDofs`), the refinement
transfer operator (`RefinementOperator::Mult` / `MultTranspose`), and
the no-op early return of `Update`.

Each C++ routine is embedded as an executable Lean function; machine
`double` coefficients are modelled as rationals, `int` DOF indices as
`Int` (or `Nat` where the source only ever uses non-negative indices).
-/

namespace MFEM

/-! ### Signed DOF encoding (fespace.cpp, `ReorderElementToDofTable`,
`AdjustVDofs`): a signed DOF `d ≥ 0` means "as stored", `-1-d` means
"stored with flipped sign"; decoding is `(sdof < 0) ? -1-sdof : sdof`. -/

/-- Decode a signed DOF: `(sdof < 0) ? -1-sdof : sdof`
(fespace.cpp line 364 and `AdjustVDofs` line 229). -/
def DecodeDof (d : Int) : Int :=
  if d < 0 then -1 - d else d

/-- Modelled from the spec: the sign-flipping encoding of a DOF `d` is
`-1-d` ("value `-1-d` means stored with flipped sign/orientation"); the
inline encoder itself lives in the header `fespace.hpp`, which is not
part of the sources. -/
def EncodeFlip (d : Int) : Int := -1 - d

/-! ### Ordering and `DofToVDof` (fespace.cpp lines 205-218). -/

/-- The two component-ordering conventions of the space
(`Ordering::byNODES` and `Ordering::byVDIM`). -/
inductive Ordering where
  | byNODES
  | byVDIM
deriving DecidableEq, Repr

/-- Modelled from the spec: `Ordering::Map` lives in the header
`fespace.hpp` (not in the sources).  The spec fixes it by example:
node-major puts component `vd` of node `dof` at `dof + ndofs*vd`
(`ndofs=5, vdim=2, dof=3, vd=1 ↦ 8`), component-major at
`dof*vdim + vd` (`↦ 7`). -/
def OrderingMap (o : Ordering) (ndofs vdim dof vd : Nat) : Nat :=
  match o with
  | .byNODES => dof + ndofs * vd
  | .byVDIM  => dof * vdim + vd

/-- `FiniteElementSpace::DofToVDof` (fespace.cpp lines 205-218):
`vdim == 1` returns `dof` unchanged; otherwise dispatch on the
ordering convention. -/
def DofToVDof (vdim : Nat) (ordering : Ordering) (ndofs dof vd : Nat) : Nat :=
  if vdim = 1 then dof
  else OrderingMap ordering ndofs vdim dof vd

/-! ### Marker/list conversion (fespace.cpp, `MarkerToList` lines
496-512, `ListToMarker` lines 515-526). -/

/-- `FiniteElementSpace::MarkerToList`: collect, in increasing order,
the indices of all nonzero entries of `marker` (the `num_marked`
counting pass in the source only pre-reserves capacity and does not
affect the produced list). -/
def MarkerToList (marker : List Int) : List Nat :=
  (List.range marker.length).filter (fun i => decide (marker.getD i 0 ≠ 0))

/-- `FiniteElementSpace::ListToMarker`: allocate a marker of size
`markerSize`, zero it, then set `marker[list[i]] = markVal` for each
list entry in order. -/
def ListToMarker (list : List Nat) (markerSize : Nat) (markVal : Int) : List Int :=
  list.foldl (fun m i => m.set i markVal) (List.replicate markerSize (0 : Int))

/-! ### `Update` early return (fespace.cpp lines 2794-2811). -/

/-- The externally observable state of a `FiniteElementSpace` that the
`Update` early return must leave untouched: DOF counts, the
element-to-DOF table, the cached conforming operators, and the stored
sequence/order flags. -/
structure SpaceState where
  ndofs : Nat
  nvdofs : Nat
  nedofs : Nat
  nfdofs : Nat
  nbdofs : Nat
  elemDof : List (List Int)
  cP : Option (List (List (Nat × ℚ)))
  cR : Option (List Nat)
  cQ : Option (List (List (Nat × ℚ)))
  cPIsSet : Bool
  sequence : Nat
  ordersChanged : Bool
deriving DecidableEq, Repr

/-- `FiniteElementSpace::Update(want_transform)` (fespace.cpp lines
2794-2811): the guard structure.  `meshSeq` stands for
`mesh->GetSequence()`; both `MFEM_ABORT` branches are modelled as
`none`; the remaining rebuild work (`Destroy`/`Construct`/transform
computation) is abstracted as the `rebuild` argument since the claim
only concerns the early return. -/
def Update (meshSeq : Nat) (wantTransform : Bool)
    (rebuild : SpaceState → Option SpaceState) (s : SpaceState) :
    Option SpaceState :=
  if meshSeq = s.sequence ∧ s.ordersChanged = false then
    some s
  else if wantTransform = true ∧ meshSeq ≠ s.sequence + 1 then
    none
  else if meshSeq ≠ s.sequence ∧ s.ordersChanged = true then
    none
  else
    rebuild s

/-! ### Entity DOF lookup with variants (fespace.cpp, `GetEdgeDofs`
lines 2464-2509, `GetFaceDofs` lines 2385-2462, `FindDofs` lines
2181-2196). -/

/-- The geometry codes used by the DOF lookup routines. -/
inductive Geom where
  | POINT
  | SEGMENT
  | TRIANGLE
  | SQUARE
  | INVALID
deriving DecidableEq, Repr

/-- A two-level variant table (`mfem::Table`): `rowI` holds per-row
offsets into the flat data array `dataJ`; row `i` of `var_edge_dofs` /
`var_face_dofs` lists the variant start offsets of entity `i`, with a
trailing sentinel row supplying the end-of-table offset. -/
structure Table where
  rowI : List Nat
  dataJ : List Nat
deriving DecidableEq, Repr

/-- Number of entries in row `i` (`GetRow(i+1) - GetRow(i)`). -/
def Table.rowSize (t : Table) (i : Nat) : Nat :=
  t.rowI.getD (i + 1) 0 - t.rowI.getD i 0

/-- `FiniteElementSpace::FindDofs` (fespace.cpp lines 2181-2196): scan
row `row` of the variant table for the block whose size is `ndof` and
return its start offset; the not-found `MFEM_ABORT` is `none`. -/
def FindDofs (t : Table) (row ndof : Nat) : Option Nat :=
  (List.range (t.rowSize row)).findSome? fun k =>
    let beg := t.rowI.getD row 0
    if t.dataJ.getD (beg + k + 1) 0 - t.dataJ.getD (beg + k) 0 = ndof then
      some (t.dataJ.getD (beg + k) 0)
    else none

/-- Modelled from the spec: `EncodeDof` is a header inline
(`fespace.hpp`, not in the sources); per the spec's signed-DOF scheme
it offsets `idx` into the entity block at `entity_base`, carrying the
`-1-d` flip encoding through: a flipped local index selects the
corresponding block DOF flipped. -/
def EncodeDof (entityBase : Nat) (idx : Int) : Int :=
  if 0 ≤ idx then entityBase + idx else -1 - (entityBase + (-1 - idx))

/-- The mesh/basis context consumed by `GetEdgeDofs` and
`GetFaceDofs`: basis-catalog callbacks (`fec->…`), mesh incidence
callbacks (`mesh->…`), the variant tables and the DOF-range bases of
the space. -/
structure DofCtx where
  varOrder : Bool
  dim : Nat
  nvdofs : Nat
  nedofs : Nat
  varEdgeDofs : Table
  varFaceDofs : Table
  varFaceNonempty : Bool
  defaultOrder : Nat
  numDof : Geom → Nat → Nat
  ndofToOrder : Geom → Nat → Option Nat
  dofOrdering : Geom → Nat → Int → Nat → Int
  edgeVertices : Nat → List Nat
  faceGeom : Nat → Geom
  faceVertices : Nat → List Nat
  faceEdges : Nat → List Nat
  faceEdgeOri : Nat → Nat → Int
  faceDof : Option (Nat → List Int)
  nurbs : Bool

/-- `FiniteElementSpace::GetEdgeDofs(edge, dofs, variant)` (fespace.cpp
lines 2464-2509).  Returns the pair (return value, `dofs` array);
a sentinel return `-1` leaves the in/out `dofs` argument untouched.
In the variable-order branch the order is deduced as `p = ne + 1`. -/
def GetEdgeDofs (c : DofCtx) (edge : Nat) (dofsIn : List Int)
    (variant : Nat) : Int × List Int :=
  let pnb : Option (Nat × Nat × Nat) :=
    if c.varOrder then
      let beg := c.varEdgeDofs.rowI.getD edge 0
      if variant ≥ c.varEdgeDofs.rowSize edge then none
      else
        let base := c.varEdgeDofs.dataJ.getD (beg + variant) 0
        let ne := c.varEdgeDofs.dataJ.getD (beg + variant + 1) 0 - base
        some (ne + 1, ne, base)
    else
      if variant > 0 then none
      else
        let p := c.defaultOrder
        let ne := c.numDof .SEGMENT p
        some (p, ne, edge * ne)
  match pnb with
  | none => (-1, dofsIn)
  | some (p, ne, base) =>
    let nv := c.numDof .POINT p
    let V := c.edgeVertices edge
    let vpart := (List.range 2).flatMap fun i =>
      (List.range nv).map fun j => (Int.ofNat (V.getD i 0 * nv + j))
    let epart := (List.range ne).map fun j =>
      (Int.ofNat (c.nvdofs + base + j))
    ((p : Int), vpart ++ epart)

/-- `FiniteElementSpace::GetFaceDofs(face, dofs, variant)` (fespace.cpp
lines 2385-2462).  The outer `Option` models `MFEM_ABORT`-style fatal
paths inside the body (`ndof_to_geom_order[...].at(nf)` throwing, or
`FindDofs` not finding an edge block); `some (-1, dofsIn)` is the
normal sentinel return.  When `face_dof` is prebuilt and `variant ==
0`, or the space is a NURBS space (which first builds `face_dof`), the
row of that table is returned with the default order — in the NURBS
case for every `variant`. -/
def GetFaceDofs (c : DofCtx) (face : Nat) (dofsIn : List Int)
    (variant : Nat) : Option (Int × List Int) :=
  if (c.faceDof.isSome ∧ variant = 0) ∨ c.nurbs = true then
    some ((c.defaultOrder : Int), (c.faceDof.getD (fun _ => [])) face)
  else
    let fgeom := if c.dim > 2 then c.faceGeom face else Geom.INVALID
    let pnf : Option (Option Nat × Nat × Nat) :=
      if c.varFaceNonempty then
        let beg := c.varFaceDofs.rowI.getD face 0
        if variant ≥ c.varFaceDofs.rowSize face then none
        else
          let fbase := c.varFaceDofs.dataJ.getD (beg + variant) 0
          let nf := c.varFaceDofs.dataJ.getD (beg + variant + 1) 0 - fbase
          some (c.ndofToOrder fgeom nf, nf, fbase)
      else
        if variant > 0 then none
        else
          let p := c.defaultOrder
          let nf := if c.dim > 2 then c.numDof fgeom p else 0
          some (some p, nf, face * nf)
    match pnf with
    | none => some (-1, dofsIn)
    | some (po, nf, fbase) =>
      match po with
      | none => none
      | some p =>
        let nv := c.numDof .POINT p
        let ne := if c.dim > 1 then c.numDof .SEGMENT p else 0
        let V := c.faceVertices face
        let E := c.faceEdges face
        let vpart := (if nv ≠ 0 then V else []).flatMap fun v =>
          (List.range nv).map fun j => (Int.ofNat (v * nv + j))
        let epartOpt : Option (List Int) :=
          if ne ≠ 0 then
            ((List.range E.length).mapM fun i =>
              let e := E.getD i 0
              (if c.varOrder then FindDofs c.varEdgeDofs e ne
               else some (e * ne)).map fun ebase =>
                (List.range ne).map fun j =>
                  EncodeDof (c.nvdofs + ebase)
                    (c.dofOrdering .SEGMENT p (c.faceEdgeOri face i) j)).map
              List.flatten
          else some []
        epartOpt.map fun epart =>
          let fpart := (List.range nf).map fun j =>
            (Int.ofNat (c.nvdofs + c.nedofs + fbase + j))
          ((p : Int), vpart ++ epart ++ fpart)

/-- Number of DOF variants an edge carries (one in a fixed-order
space, the variant-table row size otherwise); cf. `GetNVariants`
(fespace.cpp lines 2198-2205). -/
def numEdgeVariants (c : DofCtx) (edge : Nat) : Nat :=
  if c.varOrder then c.varEdgeDofs.rowSize edge else 1

/-- Number of DOF variants a face carries. -/
def numFaceVariants (c : DofCtx) (face : Nat) : Nat :=
  if c.varFaceNonempty then c.varFaceDofs.rowSize face else 1

/-- A concrete NURBS-space context: fixed order 2, a prebuilt
`face_dof` table, `NURBSext` present. -/
def nurbsCtx : DofCtx where
  varOrder := false
  dim := 3
  nvdofs := 0
  nedofs := 0
  varEdgeDofs := ⟨[], []⟩
  varFaceDofs := ⟨[], []⟩
  varFaceNonempty := false
  defaultOrder := 2
  numDof := fun _ _ => 0
  ndofToOrder := fun _ _ => none
  dofOrdering := fun _ _ _ _ => 0
  edgeVertices := fun _ => []
  faceGeom := fun _ => .SQUARE
  faceVertices := fun _ => []
  faceEdges := fun _ => []
  faceEdgeOri := fun _ _ => 0
  faceDof := some fun _ => [0, 1]
  nurbs := true

/-- A concrete non-NURBS fixed-order context (order 1 nodal space on a
small 3D mesh fragment), for exercising the variant sentinel. -/
def fixedCtx : DofCtx where
  varOrder := false
  dim := 3
  nvdofs := 8
  nedofs := 0
  varEdgeDofs := ⟨[], []⟩
  varFaceDofs := ⟨[], []⟩
  varFaceNonempty := false
  defaultOrder := 1
  numDof := fun g _ => match g with | .POINT => 1 | _ => 0
  ndofToOrder := fun _ _ => none
  dofOrdering := fun _ _ _ j => (j : Int)
  edgeVertices := fun e => [e, e + 1]
  faceGeom := fun _ => .SQUARE
  faceVertices := fun _ => [0, 1, 2, 3]
  faceEdges := fun _ => [0, 1, 2, 3]
  faceEdgeOri := fun _ _ => 0
  faceDof := none
  nurbs := false

/-- The variant-sentinel contract of the entity DOF locator, for one
edge and one face: `GetEdgeDofs` returns `-1` exactly for variants past
the last one (leaving `dofs` untouched) and a non-negative order
otherwise; `GetFaceDofs` returns the `some (-1, ·)` sentinel (a normal
return, not an abort) for variants past the last one, and every
non-aborting return carries either that sentinel or a non-negative
order for an in-range variant. -/
def VariantSentinelOK (c : DofCtx) (edge face : Nat) (dofsIn : List Int)
    (variant : Nat) : Prop :=
  ((GetEdgeDofs c edge dofsIn variant).1 = -1 ↔
      numEdgeVariants c edge ≤ variant) ∧
  (numEdgeVariants c edge ≤ variant →
      GetEdgeDofs c edge dofsIn variant = (-1, dofsIn)) ∧
  (variant < numEdgeVariants c edge →
      0 ≤ (GetEdgeDofs c edge dofsIn variant).1) ∧
  (numFaceVariants c face ≤ variant →
      GetFaceDofs c face dofsIn variant = some (-1, dofsIn)) ∧
  (∀ p dofs, GetFaceDofs c face dofsIn variant = some (p, dofs) →
      (p = -1 ∧ numFaceVariants c face ≤ variant) ∨
      (0 ≤ p ∧ variant < numFaceVariants c face))

/-! ### Dependency collection (fespace.cpp, `AddDependencies`
lines 655-678). -/

/-- The dependency matrix `deps`, viewed by rows: row `r` is the list
of `(master DOF, coefficient)` pairs recorded for slave DOF `r`
(`SparseMatrix::RowSize` is its length). `double` coefficients are
modelled as rationals. -/
def Deps : Type := Int → List (Int × ℚ)

/-- `SparseMatrix::Add(i, j, coef)`: append one entry to row `i`. -/
def Deps.add (d : Deps) (i j : Int) (coef : ℚ) : Deps :=
  fun r => if r = i then d r ++ [(j, coef)] else d r

/-- The `1e-12` magnitude threshold of `AddDependencies`, as an exact
rational. -/
def depsEps : ℚ := 1 / 10 ^ 12

/-- The inner `j`-loop of `AddDependencies` for one slave DOF `sdof`
with transfer-matrix row `Irow`: add `(sdof, master_dofs[j], Irow j)`
for every `j` whose coefficient magnitude exceeds the threshold and
whose master DOF is neither `sdof` nor its sign-flipped twin
`-1-sdof`. -/
def addDepRowUpTo (d : Deps) (masterDofs : List Int) (sdof : Int)
    (Irow : Nat → ℚ) (m : Nat) : Deps :=
  (List.range m).foldl
    (fun d j =>
      let coef := Irow j
      if |coef| > depsEps then
        let mdof := masterDofs.getD j 0
        if mdof ≠ sdof ∧ mdof ≠ -1 - sdof then d.add sdof mdof coef else d
      else d)
    d

/-- The full inner `j`-loop: all `masterDofs.length` columns. -/
def addDepRow (d : Deps) (masterDofs : List Int) (sdof : Int)
    (Irow : Nat → ℚ) : Deps :=
  addDepRowUpTo d masterDofs sdof Irow masterDofs.length

/-- One iteration of the outer `i`-loop of `AddDependencies`: indices
below `skipfirst` are skipped (the loop starts at `i = skipfirst`), a
slave DOF whose dependency row is already non-empty is left alone
(`if (!deps.RowSize(sdof))`), otherwise its row is filled from column
`i` of the transfer matrix. -/
def addDepStep (masterDofs slaveDofs : List Int) (I : Nat → Nat → ℚ)
    (skipfirst : Nat) (d : Deps) (i : Nat) : Deps :=
  if i < skipfirst then d
  else
    let sdof := slaveDofs.getD i 0
    if (d sdof).length = 0 then addDepRow d masterDofs sdof (I i) else d

/-- The state of the dependency matrix after the outer loop has
processed slave indices `0, …, k-1` ("previously recorded" rows for
index `k`). -/
def AddDependenciesUpTo (d : Deps) (masterDofs slaveDofs : List Int)
    (I : Nat → Nat → ℚ) (skipfirst k : Nat) : Deps :=
  (List.range k).foldl (addDepStep masterDofs slaveDofs I skipfirst) d

/-- `FiniteElementSpace::AddDependencies(deps, master_dofs, slave_dofs,
I, skipfirst)` (fespace.cpp lines 655-678): the outer loop over all
slave indices. -/
def AddDependencies (d : Deps) (masterDofs slaveDofs : List Int)
    (I : Nat → Nat → ℚ) (skipfirst : Nat) : Deps :=
  AddDependenciesUpTo d masterDofs slaveDofs I skipfirst slaveDofs.length

/-! ### Conforming interpolation build (fespace.cpp,
`BuildConformingInterpolation` lines 817-1093, `DofFinalizable` lines
738-750, `GetConformingProlongation` / `GetConformingRestriction` lines
1118-1130).  The dependency matrix `deps` and the inverse-dependency
matrix `sped` enter here already finalized, viewed by rows over the DOF
range `[0, ndofs)`. -/

/-- `FiniteElementSpace::DofFinalizable(dof, finalized, deps)`
(fespace.cpp lines 738-750): are all DOFs constraining `dof`
finalized? -/
def DofFinalizable (dof : Nat) (finalized : List Bool)
    (deps : Nat → List (Nat × ℚ)) : Bool :=
  (deps dof).all fun p => finalized.getD p.1 false

/-- The mutable state of the `cP` finalization loop: the rows of the
`cP` matrix under construction and the `finalized` marker array, both
of length `ndofs`. -/
structure BCIState where
  cP : List (List (Nat × ℚ))
  finalized : List Bool
deriving DecidableEq, Repr

/-- One full sweep of the finalization `do`-loop body (fespace.cpp
lines 1041-1066): for each not-yet-finalized DOF whose masters are all
finalized, accumulate its `cP` row as the coefficient-weighted
combination of its masters' rows and mark it finalized.  Updates made
early in a sweep are visible to later DOFs of the same sweep. -/
def bciPass (deps : Nat → List (Nat × ℚ)) (ndofs : Nat)
    (st : BCIState) : BCIState :=
  (List.range ndofs).foldl
    (fun st dof =>
      if !st.finalized.getD dof false &&
          DofFinalizable dof st.finalized deps then
        { cP := st.cP.set dof ((deps dof).flatMap fun mc =>
            (st.cP.getD mc.1 []).map fun cv => (cv.1, mc.2 * cv.2)),
          finalized := st.finalized.set dof true }
      else st)
    st

/-- The `finalized`-component of one sweep: the marker evolution does
not depend on the `cP` rows. -/
def bciPassFin (deps : Nat → List (Nat × ℚ)) (ndofs : Nat)
    (f : List Bool) : List Bool :=
  (List.range ndofs).foldl
    (fun f dof =>
      if !f.getD dof false && DofFinalizable dof f deps then
        f.set dof true
      else f)
    f

/-- The `do { … } while (!finished)` finalization loop (fespace.cpp
lines 1037-1068): repeat sweeps until one changes nothing.  The
explicit `fuel` bounds the number of sweeps; `ndofs + 1` sweeps
provably suffice (each non-final sweep finalizes at least one more
DOF), so the bound is never hit — which is the termination argument of
claim C1. -/
def bciLoop (deps : Nat → List (Nat × ℚ)) (ndofs : Nat) :
    Nat → BCIState → BCIState
  | 0, st => st
  | fuel + 1, st =>
    let nextSt := bciPass deps ndofs st
    if nextSt.finalized = st.finalized then nextSt
    else bciLoop deps ndofs fuel nextSt

/-- Number of true DOFs among `0, …, i-1` (the running `true_dof`
counter of fespace.cpp lines 1012-1036). -/
def numTrueBefore (deps : Nat → List (Nat × ℚ)) (i : Nat) : Nat :=
  ((List.range i).filter fun k => decide ((deps k).length = 0)).length

/-- The state entering the finalization loop (fespace.cpp lines
1003-1036): true DOFs (empty dependency rows) get an identity `cP` row
at their true-DOF column and are marked finalized; all others start
with an empty row, unfinalized. -/
def bciInit (deps : Nat → List (Nat × ℚ)) (ndofs : Nat) : BCIState where
  cP := (List.range ndofs).map fun i =>
    if (deps i).length = 0 then [(numTrueBefore deps i, (1 : ℚ))] else []
  finalized := (List.range ndofs).map fun i => decide ((deps i).length = 0)

/-- The state in which the finalization loop of
`BuildConformingInterpolation` converges. -/
def bciFinalState (deps : Nat → List (Nat × ℚ)) (ndofs : Nat) : BCIState :=
  bciLoop deps ndofs (ndofs + 1) (bciInit deps ndofs)

/-- The list of true DOFs in increasing order (the contents of `cR_J`,
fespace.cpp lines 1012-1036). -/
def trueDofList (deps : Nat → List (Nat × ℚ)) (ndofs : Nat) : List Nat :=
  (List.range ndofs).filter fun i => decide ((deps i).length = 0)

/-- `n_true_dofs` (fespace.cpp lines 966-970): the number of DOFs with
an empty dependency row. -/
def countTrueDofs (deps : Nat → List (Nat × ℚ)) (ndofs : Nat) : Nat :=
  (trueDofList deps ndofs).length

/-- The rows of the variable-order restriction matrix `cQ` (fespace.cpp
lines 1019-1032): row `true_dof` of `cQ` is the `sped` row of the
`true_dof`-th true DOF `i` when non-empty, the identity entry `(i, 1)`
otherwise. -/
def bciCQ (deps sped : Nat → List (Nat × ℚ)) (ndofs : Nat) :
    List (List (Nat × ℚ)) :=
  (trueDofList deps ndofs).map fun i =>
    if (sped i).length ≠ 0 then sped i else [(i, (1 : ℚ))]

/-- The three conforming operators as left by
`BuildConformingInterpolation`: `none` stands for a `NULL` pointer. -/
structure BCIMats where
  cP : Option (List (List (Nat × ℚ)))
  cR : Option (List Nat)
  cQ : Option (List (List (Nat × ℚ)))
deriving DecidableEq, Repr

/-- The tail of `FiniteElementSpace::BuildConformingInterpolation`
(fespace.cpp lines 963-1093) after the dependency matrices `deps` /
`sped` have been collected and finalized: count true DOFs; if all DOFs
are true, leave `cP`, `cR` and `cQ` all `NULL` and return; otherwise
run the finalization loop, `MFEM_ABORT`ing (`none`) unless every DOF
was finalized.  (`cR` is represented by its `cR_J` column list; the
`vdim > 1` block-diagonal expansion is outside this model.) -/
def BuildConformingInterpolation (varOrder : Bool)
    (deps sped : Nat → List (Nat × ℚ)) (ndofs : Nat) : Option BCIMats :=
  if countTrueDofs deps ndofs = ndofs then
    some ⟨none, none, none⟩
  else
    let st := bciFinalState deps ndofs
    if st.finalized.count true = ndofs then
      some ⟨some st.cP, some (trueDofList deps ndofs),
            if varOrder then some (bciCQ deps sped ndofs) else none⟩
    else none

/-- The constraint-relevant state of a (serial, non-NURBS) space: the
`Conforming()` flag of its mesh, the variable-order flag, its DOF
count, and the collected dependency matrices. -/
structure CSpace where
  conforming : Bool
  varOrder : Bool
  ndofs : Nat
  deps : Nat → List (Nat × ℚ)
  sped : Nat → List (Nat × ℚ)

/-- `FiniteElementSpace::GetConformingProlongation` (fespace.cpp lines
1118-1123): `NULL` for a conforming mesh, otherwise the `cP` left by
`BuildConformingInterpolation`.  The outer `Option` is the abort
channel of the build; the inner one is the `NULL`-means-identity
result. -/
def GetConformingProlongation (s : CSpace) :
    Option (Option (List (List (Nat × ℚ)))) :=
  if s.conforming then some none
  else (BuildConformingInterpolation s.varOrder s.deps s.sped s.ndofs).map
    (·.cP)

/-- `FiniteElementSpace::GetConformingRestriction` (fespace.cpp lines
1125-1130). -/
def GetConformingRestriction (s : CSpace) : Option (Option (List Nat)) :=
  if s.conforming then some none
  else (BuildConformingInterpolation s.varOrder s.deps s.sped s.ndofs).map
    (·.cR)

/-! ### Variable-order mask propagation (fespace.cpp,
`CalcEdgeFaceVarOrders` lines 2001-2105, `MinOrder` lines 1991-1999).
`VarOrderBits` is a fixed-width (64-bit) bitmask type declared in the
header; masks are modelled as `Nat` values kept below `2 ^ 64`. -/

/-- `FiniteElementSpace::MinOrder(bits)` (fespace.cpp lines
1991-1999): the index of the lowest set bit, 0 for an empty mask (the
source's fall-through return after its shift loop). -/
def MinOrder (bits : Nat) : Nat :=
  if h : bits = 0 then 0
  else if bits % 2 = 1 then 0
  else MinOrder (bits / 2) + 1
termination_by bits
decreasing_by omega

/-- The mesh/list context consumed by `CalcEdgeFaceVarOrders`: element
orders and incidences, and the non-conforming master/slave lists
(each master entity paired with the indices of its slaves). -/
structure NCInfo where
  nElems : Nat
  nEdges : Nat
  nFaces : Nat
  dim : Nat
  relaxedHp : Bool
  elemOrder : Nat → Nat
  elemEdges : Nat → List Nat
  elemFaces : Nat → List Nat
  edgeMasters : List (Nat × List Nat)
  faceMasters : List (Nat × List Nat)
  faceEdges : Nat → List Nat

/-- OR together the masks of a master edge's slave edges
(fespace.cpp lines 2054-2059). -/
def slaveOrdersEdge (eo : List Nat) (slaves : List Nat) : Nat :=
  slaves.foldl (fun acc s => acc ||| eo.getD s 0) 0

/-- The master-update step shared by both propagation loops
(fespace.cpp lines 2060-2065 and 2085-2090): when the minimum order of
the combined slave masks is below the master's own minimum, OR the
missing low order bit into the master's mask and clear `done`. -/
def propagateMinOrder (st : List Nat × Bool) (m : Nat)
    (slaveOrders : Nat) : List Nat × Bool :=
  let minOrd := MinOrder slaveOrders
  if minOrd < MinOrder (st.1.getD m 0) then
    (st.1.set m (st.1.getD m 0 ||| (1 <<< minOrd)), false)
  else st

/-- The slave-edge → master-edge propagation loop (fespace.cpp lines
2051-2066). -/
def propagateEdgeMasters (info : NCInfo) (st : List Nat × Bool) :
    List Nat × Bool :=
  info.edgeMasters.foldl
    (fun st m => propagateMinOrder st m.1 (slaveOrdersEdge st.1 m.2)) st

/-- OR together the masks of a master face's slave faces and of those
slave faces' edges (fespace.cpp lines 2069-2083). -/
def slaveOrdersFace (info : NCInfo) (eo fo : List Nat)
    (slaves : List Nat) : Nat :=
  slaves.foldl
    (fun acc s =>
      (info.faceEdges s).foldl (fun acc e => acc ||| eo.getD e 0)
        (acc ||| fo.getD s 0))
    0

/-- The slave-face → master-face propagation loop (fespace.cpp lines
2068-2091); the edge masks `eo` are those left by the edge loop of the
same sweep. -/
def propagateFaceMasters (info : NCInfo) (eo : List Nat)
    (st : List Nat × Bool) : List Nat × Bool :=
  info.faceMasters.foldl
    (fun st m =>
      propagateMinOrder st m.1 (slaveOrdersFace info eo st.1 m.2))
    st

/-- The face → incident-edge push (fespace.cpp lines 2093-2101):
every edge of every face must support the face's orders.  This step
does not touch `done`. -/
def pushFaceOrdersToEdges (info : NCInfo) (eo fo : List Nat) : List Nat :=
  (List.range info.nFaces).foldl
    (fun eo i =>
      (info.faceEdges i).foldl
        (fun eo e => eo.set e (eo.getD e 0 ||| fo.getD i 0)) eo)
    eo

/-- One sweep of the `do { … } while (!done)` body (fespace.cpp lines
2048-2104), starting from `done = true`; returns the new edge masks,
face masks and the `done` flag. -/
def calcPass (info : NCInfo) (eo fo : List Nat) :
    List Nat × List Nat × Bool :=
  let edgeRes := propagateEdgeMasters info (eo, true)
  let faceRes := propagateFaceMasters info edgeRes.1 (fo, edgeRes.2)
  (pushFaceOrdersToEdges info edgeRes.1 faceRes.1, faceRes.1, faceRes.2)

/-- The mask-propagation `do`-loop: repeat sweeps while `!done`.  The
explicit `fuel` bounds the number of sweeps; the termination theorem
shows `(nEdges + nFaces) * 2^64 + 1` sweeps always reach the `done`
exit, because masks only grow inside the fixed 64-bit lattice. -/
def calcOrdersLoop (info : NCInfo) :
    Nat → List Nat × List Nat → List Nat × List Nat
  | 0, st => st
  | fuel + 1, st =>
    let res := calcPass info st.1 st.2
    if res.2.2 then (res.1, res.2.1)
    else calcOrdersLoop info fuel (res.1, res.2.1)

/-- The initial edge/face orders required by incident elements
(fespace.cpp lines 2010-2035): each element ORs `1 << order` into the
masks of its edges and (in 3D) faces. -/
def initialOrders (info : NCInfo) : List Nat × List Nat :=
  (List.range info.nElems).foldl
    (fun st i =>
      let mask := 1 <<< info.elemOrder i
      let eo := (info.elemEdges i).foldl
        (fun eo e => eo.set e (eo.getD e 0 ||| mask)) st.1
      let fo :=
        if info.dim > 2 then
          (info.elemFaces i).foldl
            (fun fo f => fo.set f (fo.getD f 0 ||| mask)) st.2
        else st.2
      (eo, fo))
    (List.replicate info.nEdges 0, List.replicate info.nFaces 0)

/-- `FiniteElementSpace::CalcEdgeFaceVarOrders` (fespace.cpp lines
2001-2105): initialize the masks from the element orders; in relaxed-hp
mode stop there; otherwise run the fixed-point sweep loop. -/
def CalcEdgeFaceVarOrders (info : NCInfo) : List Nat × List Nat :=
  let st := initialOrders info
  if info.relaxedHp then st
  else calcOrdersLoop info ((info.nEdges + info.nFaces) * 2 ^ 64 + 1) st

/-- All masks of the list fit the fixed 64-bit `VarOrderBits` width. -/
def MaskInv (l : List Nat) : Prop := ∀ x ∈ l, x < 2 ^ 64

/-- Entry-wise bitmask inclusion: every mask of `f` is a sub-mask of
the corresponding mask of `g`. -/
def masksSub (f g : List Nat) : Prop :=
  ∀ i, f.getD i 0 ||| g.getD i 0 = g.getD i 0

/-- One sweep's effect on a mask list: same length, entry-wise
OR-growth, width preserved, and either nothing changed or the total
strictly grew. -/
def MaskGrow (l l' : List Nat) : Prop :=
  l'.length = l.length ∧ masksSub l l' ∧ (MaskInv l → MaskInv l') ∧
  (l' = l ∨ l.sum < l'.sum)

/-- `MaskGrow` together with the `done` flag discipline: the flag is
only ever cleared, and clearing it comes with strict mask growth. -/
def MaskGrowD (st st' : List Nat × Bool) : Prop :=
  MaskGrow st.1 st'.1 ∧
  (st' = st ∨ (st'.2 = false ∧ st.1.sum < st'.1.sum))

/-- A concrete two-element mesh fragment with two edges, edge 0 a
master of slave edge 1, uniform element order 2. -/
def testNCInfo : NCInfo where
  nElems := 2
  nEdges := 2
  nFaces := 0
  dim := 2
  relaxedHp := false
  elemOrder := fun _ => 2
  elemEdges := fun i => [i]
  elemFaces := fun _ => []
  edgeMasters := [(0, [1])]
  faceMasters := []
  faceEdges := fun _ => []

/-! ### Refinement transfer operator (fespace.cpp,
`RefinementOperator::Mult` lines 1406-1441, `MultTranspose` lines
1443-1498).  The model is the `vdim = 1` instance (the component loop
over `vd` collapses, `DofsToVDofs` being the identity there).  Each
fine element carries its signed fine DOFs (`GetElementDofs`), its
parent's signed coarse DOFs (`old_elem_dof->GetRow`), and its cached
local interpolation block `localP[geom](emb.matrix)`. -/

/-- Decode a signed DOF to its storage index (the `DecodeDof` used at
fespace.cpp lines 1483 and 1495), as a natural number. -/
def intDecode (d : Int) : Nat := (DecodeDof d).toNat

/-- The sign a signed DOF applies to the stored value. -/
def sgnOf (d : Int) : ℚ := if 0 ≤ d then 1 else -1

/-- One fine element of the refined mesh as seen by the
`RefinementOperator`. -/
structure RefElem where
  fdofs : List Int
  cdofs : List Int
  lP : Nat → Nat → ℚ

/-- `Vector::GetSubVector` with signed DOFs: a negative entry reads
the decoded slot with flipped sign. -/
def getSub (x : Nat → ℚ) (dofs : List Int) : List ℚ :=
  dofs.map fun d => if 0 ≤ d then x d.toNat else -x (-1 - d).toNat

/-- `Vector::SetSubVector` with signed DOFs: sequential writes, a
negative entry writing the flipped value. -/
def setSub (y : Nat → ℚ) (dofs : List Int) (vals : List ℚ) : Nat → ℚ :=
  (dofs.zip vals).foldl
    (fun y dv =>
      if 0 ≤ dv.1 then Function.update y dv.1.toNat dv.2
      else Function.update y (-1 - dv.1).toNat (-dv.2))
    y

/-- `Vector::AddElementVector` with signed DOFs: accumulate, a
negative entry subtracting the value. -/
def addSub (y : Nat → ℚ) (dofs : List Int) (vals : List ℚ) : Nat → ℚ :=
  (dofs.zip vals).foldl
    (fun y dv =>
      if 0 ≤ dv.1 then
        Function.update y dv.1.toNat (y dv.1.toNat + dv.2)
      else
        Function.update y (-1 - dv.1).toNat (y (-1 - dv.1).toNat - dv.2))
    y

/-- `DenseMatrix::Mult`: `rows`-vector `A · v`. -/
def matVec (A : Nat → Nat → ℚ) (rows : Nat) (v : List ℚ) : List ℚ :=
  (List.range rows).map fun i =>
    ∑ j ∈ Finset.range v.length, A i j * v.getD j 0

/-- `DenseMatrix::MultTranspose`: `cols`-vector `Aᵀ · v`. -/
def matTVec (A : Nat → Nat → ℚ) (cols : Nat) (v : List ℚ) : List ℚ :=
  (List.range cols).map fun j =>
    ∑ i ∈ Finset.range v.length, A i j * v.getD i 0

/-- The local fine values `lP · x|cdofs` one element writes
(`subY` of `RefinementOperator::Mult`). -/
def elemWriteVals (x : Nat → ℚ) (e : RefElem) : List ℚ :=
  matVec e.lP e.fdofs.length (getSub x e.cdofs)

/-- The signed value element `e` stores at the decoded slot of its
`p`-th fine DOF during `Mult`. -/
def writeVal (x : Nat → ℚ) (e : RefElem) (p : Nat) : ℚ :=
  if 0 ≤ e.fdofs.getD p 0 then (elemWriteVals x e).getD p 0
  else -(elemWriteVals x e).getD p 0

/-- `RefinementOperator::Mult` (fespace.cpp lines 1406-1441): for each
fine element, gather the parent's coarse values, apply the local
interpolation block, and scatter-write onto the fine vector (later
elements overwrite shared DOFs). -/
def RefinementMult (elems : List RefElem) (x y : Nat → ℚ) : Nat → ℚ :=
  elems.foldl (fun y e => setSub y e.fdofs (elemWriteVals x e)) y

/-- One element of the `RefinementOperator::MultTranspose` loop
(fespace.cpp lines 1461-1497): gather the fine values, zero every slot
whose decoded global DOF is already marked `processed`, apply the local
transpose block, accumulate into the coarse vector, then mark all of
the element's decoded DOFs processed. -/
def multTStep (x : Nat → ℚ) (st : (Nat → ℚ) × (Nat → Bool))
    (e : RefElem) : (Nat → ℚ) × (Nat → Bool) :=
  let subX := (List.range e.fdofs.length).map fun p =>
    if st.2 (intDecode (e.fdofs.getD p 0)) then 0
    else (getSub x e.fdofs).getD p 0
  (addSub st.1 e.cdofs (matTVec e.lP e.cdofs.length subX),
   fun i => st.2 i ||
     (List.range e.fdofs.length).any fun p =>
       intDecode (e.fdofs.getD p 0) == i)

/-- `RefinementOperator::MultTranspose` (fespace.cpp lines 1443-1498):
`y = 0`, then the per-element transpose loop with the `processed`
marker array (initially all clear). -/
def RefinementMultTranspose (elems : List RefElem) (x : Nat → ℚ) :
    Nat → ℚ :=
  (elems.foldl (multTStep x) ((fun _ => 0), fun _ => false)).1

/-- The inner product of the first `n` slots. -/
def dot (n : Nat) (a b : Nat → ℚ) : ℚ :=
  ∑ i ∈ Finset.range n, a i * b i

/-- Sibling fine elements write consistent values to shared fine DOFs:
whenever two elements' signed fine DOF lists decode to the same global
DOF, the signed values they store there agree for every coarse input.
(This is the mesh-consistency fact the refinement transfer relies on:
a shared DOF carries one well-defined fine value.) -/
def WriteConsistent (elems : List RefElem) : Prop :=
  ∀ (x : Nat → ℚ) e1 e2 p1 p2, e1 ∈ elems → e2 ∈ elems →
    p1 < e1.fdofs.length → p2 < e2.fdofs.length →
    intDecode (e1.fdofs.getD p1 0) = intDecode (e2.fdofs.getD p2 0) →
    writeVal x e1 p1 = writeVal x e2 p2

/-- Does some element of `L` own fine global DOF `j`? -/
def coveredByB (L : List RefElem) (j : Nat) : Bool :=
  L.any fun e => (e.fdofs.map intDecode).contains j

/-- A concrete fine element: two fine DOFs (one stored sign-flipped),
one coarse DOF, constant local interpolation block. -/
def testRefElem : RefElem where
  fdofs := [0, -2]
  cdofs := [0]
  lP := fun _ _ => 1

/-- A concrete three-DOF space whose dependency rows are all empty
(a conforming mesh seen by the constraint collector). -/
def allTrueSpace : CSpace where
  conforming := false
  varOrder := false
  ndofs := 3
  deps := fun _ => []
  sped := fun _ => []

/-! ## Theorems -/

/-- C5: Signed-DOF encoding and decoding are exact inverses: for every
`d ≥ 0`, decoding the flipped encoding `-1-d` returns `d`, and decoding
an unflipped value `d` returns `d` itself. -/
theorem decode_encode_roundtrip (d : Int) (h : 0 ≤ d) :
    DecodeDof (EncodeFlip d) = d ∧ DecodeDof d = d := by
  unfold DecodeDof EncodeFlip
  constructor
  · rw [if_pos (by omega)]; omega
  · rw [if_neg (by omega)]

/-- Witness for C5 at `d = 7`. -/
theorem decode_encode_roundtrip_witness :
    (0 : Int) ≤ 7 ∧ (DecodeDof (EncodeFlip 7) = 7 ∧ DecodeDof 7 = 7) :=
  ⟨by decide, decode_encode_roundtrip 7 (by decide)⟩

/-- C6: with `ndofs = 5`, `vdim = 2`, `DofToVDof` sends `dof = 3`,
`vd = 1` to `8` under `byNODES` and to `7` under `byVDIM`; and for
`vdim = 1` it is the identity under both conventions. -/
theorem dofToVDof_examples_and_identity :
    DofToVDof 2 .byNODES 5 3 1 = 8 ∧
    DofToVDof 2 .byVDIM 5 3 1 = 7 ∧
    ∀ (o : Ordering) (ndofs dof vd : Nat), DofToVDof 1 o ndofs dof vd = dof := by
  refine ⟨by decide, by decide, ?_⟩
  intro o ndofs dof vd
  simp [DofToVDof]


/-! ### C7: marker round-trip. -/

lemma foldl_set_length (L : List Nat) (v : Int) (init : List Int) :
    (L.foldl (fun m i => m.set i v) init).length = init.length := by
  induction L generalizing init with
  | nil => rfl
  | cons a L ih => simp [List.foldl_cons, ih, List.length_set]

lemma foldl_set_getElem? (L : List Nat) (v : Int) (init : List Int) (j : Nat) :
    (L.foldl (fun m i => m.set i v) init)[j]? =
      if j ∈ L ∧ j < init.length then some v else init[j]? := by
  induction L generalizing init with
  | nil => simp
  | cons a L ih =>
    rw [List.foldl_cons, ih, List.length_set]
    by_cases hmem : j ∈ L ∧ j < init.length
    · rw [if_pos hmem, if_pos ⟨List.mem_cons_of_mem a hmem.1, hmem.2⟩]
    · rw [if_neg hmem]
      by_cases haj : a = j ∧ j < init.length
      · rw [if_pos ⟨haj.1 ▸ List.mem_cons_self a L, haj.2⟩]
        rw [List.getElem?_set, if_pos haj.1, if_pos (haj.1 ▸ haj.2)]
      · have hnc : ¬(j ∈ a :: L ∧ j < init.length) := by
          intro ⟨hm, hlt⟩
          rcases List.mem_cons.mp hm with h | h
          · exact haj ⟨h.symm, hlt⟩
          · exact hmem ⟨h, hlt⟩
        rw [if_neg hnc, List.getElem?_set]
        by_cases hae : a = j
        · rcases Decidable.em (j < init.length) with hlt | hlt
          · exact absurd ⟨hae, hlt⟩ haj
          · rw [if_pos hae, if_neg (hae ▸ hlt)]
            exact (List.getElem?_eq_none (by omega)).symm
        · rw [if_neg hae]

lemma mem_markerToList (marker : List Int) (j : Nat) :
    j ∈ MarkerToList marker ↔ j < marker.length ∧ marker.getD j 0 ≠ 0 := by
  unfold MarkerToList
  rw [List.mem_filter, List.mem_range]
  simp

/-- C7: for every marker array whose entries are all 0 or 1,
`ListToMarker (MarkerToList marker) marker.length 1` reproduces the
original marker: `MarkerToList` collects exactly the indices holding
nonzero entries in increasing order, and `ListToMarker` marks exactly
those indices and zeroes the rest. -/
theorem listToMarker_markerToList_roundtrip (marker : List Int)
    (h : ∀ x ∈ marker, x = 0 ∨ x = 1) :
    ListToMarker (MarkerToList marker) marker.length 1 = marker := by
  apply List.ext_getElem?
  intro j
  unfold ListToMarker
  rw [foldl_set_getElem?, List.length_replicate]
  by_cases hj : j < marker.length
  · have hjget : marker[j]? = some marker[j] := List.getElem?_eq_getElem hj
    have hgetD : marker.getD j 0 = marker[j] := by
      rw [List.getD_eq_getElem?_getD, hjget]; rfl
    rcases h marker[j] (marker.getElem_mem hj) with h0 | h1
    · have hnm : ¬(j ∈ MarkerToList marker ∧ j < marker.length) := by
        intro ⟨hm, _⟩
        exact ((mem_markerToList marker j).mp hm).2 (by rw [hgetD, h0])
      rw [if_neg hnm, List.getElem?_replicate, if_pos hj, hjget, h0]
    · have hm : j ∈ MarkerToList marker ∧ j < marker.length :=
        ⟨(mem_markerToList marker j).mpr ⟨hj, by rw [hgetD, h1]; decide⟩, hj⟩
      rw [if_pos hm, hjget, h1]
  · have hnm : ¬(j ∈ MarkerToList marker ∧ j < marker.length) := fun hc => hj hc.2
    rw [if_neg hnm, List.getElem?_replicate, if_neg hj,
        List.getElem?_eq_none (by omega)]

/-- Witness for C7 on the concrete marker `[1, 0, 1, 1, 0]`. -/
theorem listToMarker_markerToList_roundtrip_witness :
    (∀ x ∈ ([1, 0, 1, 1, 0] : List Int), x = 0 ∨ x = 1) ∧
    ListToMarker (MarkerToList [1, 0, 1, 1, 0]) 5 1 = [1, 0, 1, 1, 0] := by
  refine ⟨by decide, ?_⟩
  have h := listToMarker_markerToList_roundtrip [1, 0, 1, 1, 0] (by decide)
  simpa using h

/-! ### C10: `Update` early return is a no-op. -/

/-- C10: if the mesh's sequence equals the space's stored sequence and
no element order change is pending, `Update(want_transform)` returns
immediately with the entire space state unchanged, for any pending
rebuild behaviour and either value of `want_transform`. -/
theorem update_noop (meshSeq : Nat) (wantTransform : Bool)
    (rebuild : SpaceState → Option SpaceState) (s : SpaceState)
    (hseq : meshSeq = s.sequence) (hord : s.ordersChanged = false) :
    Update meshSeq wantTransform rebuild s = some s := by
  unfold Update
  rw [if_pos ⟨hseq, hord⟩]

/-- Witness for C10 at a concrete space state. -/
theorem update_noop_witness :
    (3 = ({ ndofs := 7, nvdofs := 4, nedofs := 3, nfdofs := 0, nbdofs := 0,
            elemDof := [[0, 1, 2], [1, 2, 3]], cP := none, cR := none,
            cQ := none, cPIsSet := false, sequence := 3,
            ordersChanged := false } : SpaceState).sequence ∧
     ({ ndofs := 7, nvdofs := 4, nedofs := 3, nfdofs := 0, nbdofs := 0,
        elemDof := [[0, 1, 2], [1, 2, 3]], cP := none, cR := none,
        cQ := none, cPIsSet := false, sequence := 3,
        ordersChanged := false } : SpaceState).ordersChanged = false) ∧
    Update 3 true (fun _ => none)
      { ndofs := 7, nvdofs := 4, nedofs := 3, nfdofs := 0, nbdofs := 0,
        elemDof := [[0, 1, 2], [1, 2, 3]], cP := none, cR := none,
        cQ := none, cPIsSet := false, sequence := 3,
        ordersChanged := false } =
      some { ndofs := 7, nvdofs := 4, nedofs := 3, nfdofs := 0, nbdofs := 0,
             elemDof := [[0, 1, 2], [1, 2, 3]], cP := none, cR := none,
             cQ := none, cPIsSet := false, sequence := 3,
             ordersChanged := false } :=
  ⟨⟨rfl, rfl⟩, update_noop 3 true (fun _ => none) _ rfl rfl⟩

/-! ### C8: variant sentinel of the entity DOF locator. -/

/-- C8 counterexample: for a NURBS space (`NURBSext` non-null),
`GetFaceDofs` with `variant = 1` — past the last available variant,
since the fixed-order space has exactly one — does not return the
sentinel `-1`: the prebuilt face-DOF table path returns the default
order `2` for every variant. -/
theorem getFaceDofs_nurbs_no_sentinel :
    numFaceVariants nurbsCtx 0 ≤ 1 ∧
    GetFaceDofs nurbsCtx 0 [] 1 = some (2, [0, 1]) ∧
    GetFaceDofs nurbsCtx 0 [] 1 ≠ some (-1, []) := by
  refine ⟨by decide, rfl, by decide⟩

/-- C8 (amended): provided the prebuilt `face_dof`-table path is not
taken — the space is not a NURBS space, and for faces the table is
absent or a variant other than 0 is requested — `GetEdgeDofs` and
`GetFaceDofs` return the non-negative order of the requested variant
when its DOF block exists and the sentinel `-1` (a normal return, not
an abort) whenever the requested variant is past the last available
one; in particular for any `variant > 0` in a fixed-order space. -/
lemma getEdgeDofs_sentinel_aux (c : DofCtx) (edge : Nat)
    (dofsIn : List Int) (variant : Nat) :
    ((GetEdgeDofs c edge dofsIn variant).1 = -1 ↔
        numEdgeVariants c edge ≤ variant) ∧
    (numEdgeVariants c edge ≤ variant →
        GetEdgeDofs c edge dofsIn variant = (-1, dofsIn)) ∧
    (variant < numEdgeVariants c edge →
        0 ≤ (GetEdgeDofs c edge dofsIn variant).1) := by
  by_cases hvo : c.varOrder = true
  · by_cases hs : c.varEdgeDofs.rowSize edge ≤ variant
    · simp [GetEdgeDofs, numEdgeVariants, hvo, hs]
    · simp [GetEdgeDofs, numEdgeVariants, hvo, hs]
      omega
  · by_cases h0 : variant = 0
    · simp [GetEdgeDofs, numEdgeVariants, hvo, h0]
    · simp [GetEdgeDofs, numEdgeVariants, hvo, Nat.pos_of_ne_zero h0]
      omega

lemma getFaceDofs_sentinel_aux (c : DofCtx) (face : Nat)
    (dofsIn : List Int) (variant : Nat)
    (hn : c.nurbs = false)
    (hfd : ¬(c.faceDof.isSome = true ∧ variant = 0)) :
    (numFaceVariants c face ≤ variant →
        GetFaceDofs c face dofsIn variant = some (-1, dofsIn)) ∧
    (∀ p dofs, GetFaceDofs c face dofsIn variant = some (p, dofs) →
        (p = -1 ∧ numFaceVariants c face ≤ variant) ∨
        (0 ≤ p ∧ variant < numFaceVariants c face)) := by
  have hcond : ¬((c.faceDof.isSome = true ∧ variant = 0) ∨ c.nurbs = true) := by
    rw [hn]; simpa using hfd
  by_cases hvf : c.varFaceNonempty = true
  · by_cases hs : c.varFaceDofs.rowSize face ≤ variant
    · simp [GetFaceDofs, numFaceVariants, hcond, hvf, hs]
    · simp only [GetFaceDofs, numFaceVariants, if_neg hcond, hvf, if_true,
        if_neg (by omega : ¬variant ≥ c.varFaceDofs.rowSize face)]
      refine ⟨fun h => absurd h (by omega), ?_⟩
      intro p dofs h
      right
      rcases hpo : c.ndofToOrder (if c.dim > 2 then c.faceGeom face else
          Geom.INVALID) (c.varFaceDofs.dataJ.getD
          (c.varFaceDofs.rowI.getD face 0 + variant + 1) 0 -
          c.varFaceDofs.dataJ.getD
          (c.varFaceDofs.rowI.getD face 0 + variant) 0) with _ | q
      · rw [hpo] at h; simp at h
      · rw [hpo] at h
        simp only [Option.map_eq_some'] at h
        obtain ⟨ep, _, heq⟩ := h
        refine ⟨?_, by omega⟩
        injection heq with h1 h2
        subst h1
        omega
  · by_cases h0 : variant = 0
    · have hfe : c.faceDof.isSome = false := by
        rcases hfo : c.faceDof.isSome with _ | _
        · rfl
        · exact absurd ⟨hfo, h0⟩ hfd
      subst h0
      simp only [GetFaceDofs, numFaceVariants, hfe, hn, Bool.false_eq_true,
        false_and, and_true, false_or, if_false, hvf,
        if_neg (by omega : ¬(0 : Nat) > 0)]
      refine ⟨fun h => absurd h (by omega), ?_⟩
      intro p dofs h
      right
      simp only [Option.map_eq_some'] at h
      obtain ⟨ep, _, heq⟩ := h
      injection heq with h1 h2
      subst h1
      refine ⟨by omega, by omega⟩
    · simp [GetFaceDofs, numFaceVariants, hcond, hvf, Nat.pos_of_ne_zero h0]
      omega

/-- C8 (amended): provided the prebuilt `face_dof`-table path is not
taken — the space is not a NURBS space, and for faces the table is
absent or a variant other than 0 is requested — `GetEdgeDofs` and
`GetFaceDofs` return the non-negative order of the requested variant
when its DOF block exists and the sentinel `-1` (a normal return, not
an abort) whenever the requested variant is past the last available
one; in particular for any `variant > 0` in a fixed-order space. -/
theorem getEntityDofs_variant_sentinel (c : DofCtx) (edge face : Nat)
    (dofsIn : List Int) (variant : Nat)
    (hn : c.nurbs = false)
    (hfd : ¬(c.faceDof.isSome = true ∧ variant = 0)) :
    VariantSentinelOK c edge face dofsIn variant := by
  obtain ⟨h1, h2, h3⟩ := getEdgeDofs_sentinel_aux c edge dofsIn variant
  obtain ⟨h4, h5⟩ := getFaceDofs_sentinel_aux c face dofsIn variant hn hfd
  exact ⟨h1, h2, h3, h4, h5⟩

/-- Witness for C8 (amended) on the concrete fixed-order context, at
`variant = 1`. -/
theorem getEntityDofs_variant_sentinel_witness :
    (fixedCtx.nurbs = false ∧ ¬(fixedCtx.faceDof.isSome = true ∧ 1 = 0)) ∧
    VariantSentinelOK fixedCtx 0 0 [] 1 :=
  ⟨⟨rfl, by decide⟩,
   getEntityDofs_variant_sentinel fixedCtx 0 0 [] 1 rfl (by decide)⟩

/-! ### C3: `AddDependencies` membership characterization. -/

lemma mem_deps_add (d : Deps) (i j : Int) (c : ℚ) (r : Int) (e : Int × ℚ) :
    e ∈ d.add i j c r ↔ e ∈ d r ∨ (r = i ∧ e = (j, c)) := by
  unfold Deps.add
  by_cases h : r = i
  · subst h
    simp
  · simp [h]

lemma mem_addDepRowUpTo (masterDofs : List Int) (sdof : Int)
    (Irow : Nat → ℚ) (e : Int × ℚ) (r : Int) :
    ∀ (m : Nat) (d : Deps),
      (e ∈ addDepRowUpTo d masterDofs sdof Irow m r ↔
        e ∈ d r ∨
        (r = sdof ∧ ∃ j, j < m ∧ |Irow j| > depsEps ∧
          masterDofs.getD j 0 ≠ sdof ∧ masterDofs.getD j 0 ≠ -1 - sdof ∧
          e = (masterDofs.getD j 0, Irow j))) := by
  intro m
  induction m with
  | zero => intro d; simp [addDepRowUpTo]
  | succ m ih =>
    intro d
    have hstep : addDepRowUpTo d masterDofs sdof Irow (m + 1) =
        (if |Irow m| > depsEps then
          (if masterDofs.getD m 0 ≠ sdof ∧ masterDofs.getD m 0 ≠ -1 - sdof
           then (addDepRowUpTo d masterDofs sdof Irow m).add sdof
             (masterDofs.getD m 0) (Irow m)
           else addDepRowUpTo d masterDofs sdof Irow m)
        else addDepRowUpTo d masterDofs sdof Irow m) := by
      unfold addDepRowUpTo
      rw [List.range_succ, List.foldl_append]
      rfl
    rw [hstep]
    have hsucc : ∀ (P : Nat → Prop), (∃ j, j < m + 1 ∧ P j) ↔
        ((∃ j, j < m ∧ P j) ∨ P m) := by
      intro P
      constructor
      · rintro ⟨j, hj, hp⟩
        rcases Nat.lt_succ_iff_lt_or_eq.mp hj with h | h
        · exact Or.inl ⟨j, h, hp⟩
        · exact Or.inr (h ▸ hp)
      · rintro (⟨j, hj, hp⟩ | hp)
        · exact ⟨j, Nat.lt_succ_of_lt hj, hp⟩
        · exact ⟨m, Nat.lt_succ_self m, hp⟩
    by_cases hc : |Irow m| > depsEps
    · rw [if_pos hc]
      by_cases hm : masterDofs.getD m 0 ≠ sdof ∧ masterDofs.getD m 0 ≠ -1 - sdof
      · rw [if_pos hm, mem_deps_add, ih d]
        constructor
        · rintro ((h | ⟨hr, j, hj, hrest⟩) | ⟨hr, he⟩)
          · exact Or.inl h
          · exact Or.inr ⟨hr, (hsucc _).mpr (Or.inl ⟨j, hj, hrest⟩)⟩
          · exact Or.inr ⟨hr, (hsucc _).mpr (Or.inr ⟨hc, hm.1, hm.2, he⟩)⟩
        · rintro (h | ⟨hr, hex⟩)
          · exact Or.inl (Or.inl h)
          · rcases (hsucc _).mp hex with ⟨j, hj, hrest⟩ | ⟨_, _, _, he⟩
            · exact Or.inl (Or.inr ⟨hr, j, hj, hrest⟩)
            · exact Or.inr ⟨hr, he⟩
      · rw [if_neg hm, ih d]
        constructor
        · rintro (h | ⟨hr, j, hj, hrest⟩)
          · exact Or.inl h
          · exact Or.inr ⟨hr, (hsucc _).mpr (Or.inl ⟨j, hj, hrest⟩)⟩
        · rintro (h | ⟨hr, hex⟩)
          · exact Or.inl h
          · rcases (hsucc _).mp hex with ⟨j, hj, hrest⟩ | ⟨_, h1, h2, _⟩
            · exact Or.inr ⟨hr, j, hj, hrest⟩
            · exact absurd ⟨h1, h2⟩ hm
    · rw [if_neg hc, ih d]
      constructor
      · rintro (h | ⟨hr, j, hj, hrest⟩)
        · exact Or.inl h
        · exact Or.inr ⟨hr, (hsucc _).mpr (Or.inl ⟨j, hj, hrest⟩)⟩
      · rintro (h | ⟨hr, hex⟩)
        · exact Or.inl h
        · rcases (hsucc _).mp hex with ⟨j, hj, hrest⟩ | ⟨hcm, _⟩
          · exact Or.inr ⟨hr, j, hj, hrest⟩
          · exact absurd hcm hc

lemma mem_addDepStep (masterDofs slaveDofs : List Int) (I : Nat → Nat → ℚ)
    (skipfirst : Nat) (d : Deps) (i : Nat) (r : Int) (e : Int × ℚ) :
    e ∈ addDepStep masterDofs slaveDofs I skipfirst d i r ↔
      e ∈ d r ∨
      (skipfirst ≤ i ∧ (d (slaveDofs.getD i 0)).length = 0 ∧
        r = slaveDofs.getD i 0 ∧
        ∃ j, j < masterDofs.length ∧ |I i j| > depsEps ∧
          masterDofs.getD j 0 ≠ slaveDofs.getD i 0 ∧
          masterDofs.getD j 0 ≠ -1 - slaveDofs.getD i 0 ∧
          e = (masterDofs.getD j 0, I i j)) := by
  unfold addDepStep
  by_cases hskip : i < skipfirst
  · rw [if_pos hskip]
    constructor
    · exact Or.inl
    · rintro (h | ⟨hle, _⟩)
      · exact h
      · omega
  · rw [if_neg hskip]
    by_cases hrow : (d (slaveDofs.getD i 0)).length = 0
    · rw [if_pos hrow]
      rw [show addDepRow d masterDofs (slaveDofs.getD i 0) (I i) =
            addDepRowUpTo d masterDofs (slaveDofs.getD i 0) (I i)
              masterDofs.length from rfl,
          mem_addDepRowUpTo]
      constructor
      · rintro (h | ⟨hr, hex⟩)
        · exact Or.inl h
        · exact Or.inr ⟨by omega, hrow, hr, hex⟩
      · rintro (h | ⟨_, _, hr, hex⟩)
        · exact Or.inl h
        · exact Or.inr ⟨hr, hex⟩
    · rw [if_neg hrow]
      constructor
      · exact Or.inl
      · rintro (h | ⟨_, hz, _⟩)
        · exact h
        · exact absurd hz hrow

/-- C3: an entry `(mdof, coef)` appears in row `sdof` of the matrix
produced by `AddDependencies(deps, master_dofs, slave_dofs, I,
skipfirst)` exactly when it was already in `deps`, or there are indices
`i ≥ skipfirst` and `j` such that `sdof = slave_dofs[i]` had no
previously recorded dependency row when the loop reached `i`,
`|I(i,j)| > 1e-12`, and `mdof = master_dofs[j]` is neither `sdof` nor
its sign-flipped twin `-1-sdof`, with `coef = I(i,j)`; entries at or
below the threshold and self-dependencies are never added. -/
theorem addDependencies_mem_iff (d : Deps) (masterDofs slaveDofs : List Int)
    (I : Nat → Nat → ℚ) (skipfirst : Nat) (r : Int) (e : Int × ℚ) :
    e ∈ AddDependencies d masterDofs slaveDofs I skipfirst r ↔
      e ∈ d r ∨
      ∃ i, i < slaveDofs.length ∧ skipfirst ≤ i ∧
        ((AddDependenciesUpTo d masterDofs slaveDofs I skipfirst i)
            (slaveDofs.getD i 0)).length = 0 ∧
        r = slaveDofs.getD i 0 ∧
        ∃ j, j < masterDofs.length ∧ |I i j| > depsEps ∧
          masterDofs.getD j 0 ≠ slaveDofs.getD i 0 ∧
          masterDofs.getD j 0 ≠ -1 - slaveDofs.getD i 0 ∧
          e = (masterDofs.getD j 0, I i j) := by
  have key : ∀ (k : Nat),
      e ∈ AddDependenciesUpTo d masterDofs slaveDofs I skipfirst k r ↔
        e ∈ d r ∨
        ∃ i, i < k ∧ skipfirst ≤ i ∧
          ((AddDependenciesUpTo d masterDofs slaveDofs I skipfirst i)
              (slaveDofs.getD i 0)).length = 0 ∧
          r = slaveDofs.getD i 0 ∧
          ∃ j, j < masterDofs.length ∧ |I i j| > depsEps ∧
            masterDofs.getD j 0 ≠ slaveDofs.getD i 0 ∧
            masterDofs.getD j 0 ≠ -1 - slaveDofs.getD i 0 ∧
            e = (masterDofs.getD j 0, I i j) := by
    intro k
    induction k with
    | zero => simp [AddDependenciesUpTo]
    | succ k ih =>
      have hstep : AddDependenciesUpTo d masterDofs slaveDofs I skipfirst
            (k + 1) =
          addDepStep masterDofs slaveDofs I skipfirst
            (AddDependenciesUpTo d masterDofs slaveDofs I skipfirst k) k := by
        unfold AddDependenciesUpTo
        rw [List.range_succ, List.foldl_append]
        rfl
      rw [hstep, mem_addDepStep]
      constructor
      · rintro (h | ⟨hle, hz, hr, hex⟩)
        · rcases ih.mp h with h | ⟨i, hi, hrest⟩
          · exact Or.inl h
          · exact Or.inr ⟨i, Nat.lt_succ_of_lt hi, hrest⟩
        · exact Or.inr ⟨k, Nat.lt_succ_self k, hle, hz, hr, hex⟩
      · rintro (h | ⟨i, hi, hle, hz, hr, hex⟩)
        · exact Or.inl (ih.mpr (Or.inl h))
        · rcases Nat.lt_succ_iff_lt_or_eq.mp hi with hik | hik
          · exact Or.inl (ih.mpr (Or.inr ⟨i, hik, hle, hz, hr, hex⟩))
          · subst hik
            exact Or.inr ⟨hle, hz, hr, hex⟩
  exact key slaveDofs.length

/-! ### C1/C2: the finalization loop of `BuildConformingInterpolation`
terminates at a fixed point and never yields a partial `cP`. -/

lemma boolLe_refl (f : List Bool) :
    List.Forall₂ (fun a b => a = true → b = true) f f :=
  List.forall₂_same.mpr fun _ _ => id

lemma boolLe_trans {f g h : List Bool}
    (h1 : List.Forall₂ (fun a b => a = true → b = true) f g)
    (h2 : List.Forall₂ (fun a b => a = true → b = true) g h) :
    List.Forall₂ (fun a b => a = true → b = true) f h := by
  induction h1 generalizing h with
  | nil => cases h2; exact List.Forall₂.nil
  | cons hab _ ih =>
    cases h2 with
    | cons hbc htail => exact List.Forall₂.cons (fun ha => hbc (hab ha)) (ih htail)

lemma boolLe_set_true (f : List Bool) (i : Nat) :
    List.Forall₂ (fun a b => a = true → b = true) f (f.set i true) := by
  induction f generalizing i with
  | nil => exact List.Forall₂.nil
  | cons a t ih =>
    cases i with
    | zero => exact List.Forall₂.cons (fun _ => rfl) (boolLe_refl t)
    | succ n => exact List.Forall₂.cons id (ih n)

lemma boolLe_count_le {f g : List Bool}
    (h : List.Forall₂ (fun a b => a = true → b = true) f g) :
    f.count true ≤ g.count true := by
  induction h with
  | nil => exact Nat.le_refl 0
  | @cons a b tf tg hab htail ih =>
    rw [List.count_cons, List.count_cons]
    cases a with
    | true => rw [hab rfl]; omega
    | false => cases b <;> simp <;> omega

lemma boolLe_count_lt {f g : List Bool}
    (h : List.Forall₂ (fun a b => a = true → b = true) f g)
    (hne : f ≠ g) : f.count true < g.count true := by
  induction h with
  | nil => exact absurd rfl hne
  | @cons a b tf tg hab htail ih =>
    rw [List.count_cons, List.count_cons]
    by_cases hhd : a = b
    · subst hhd
      have htne : tf ≠ tg := fun hc => hne (by rw [hc])
      have := ih htne
      omega
    · have ha : a = false := by
        cases a
        · rfl
        · exact absurd (hab rfl).symm hhd
      have hb : b = true := by
        cases b
        · subst ha; exact absurd rfl hhd
        · rfl
      subst ha; subst hb
      have := boolLe_count_le htail
      simp
      omega

lemma bciPassFin_boolLe (deps : Nat → List (Nat × ℚ)) (ndofs : Nat)
    (f : List Bool) :
    List.Forall₂ (fun a b => a = true → b = true) f
      (bciPassFin deps ndofs f) := by
  unfold bciPassFin
  generalize List.range ndofs = L
  induction L generalizing f with
  | nil => exact boolLe_refl f
  | cons a L ih =>
    rw [List.foldl_cons]
    by_cases h : (!f.getD a false && DofFinalizable a f deps) = true
    · rw [if_pos h]
      exact boolLe_trans (boolLe_set_true f a) (ih _)
    · rw [if_neg h]
      exact ih f

lemma bciPassFin_length (deps : Nat → List (Nat × ℚ)) (ndofs : Nat)
    (f : List Bool) : (bciPassFin deps ndofs f).length = f.length :=
  ((bciPassFin_boolLe deps ndofs f).length_eq).symm

lemma bciPass_finalized (deps : Nat → List (Nat × ℚ)) (ndofs : Nat) :
    ∀ st : BCIState,
      (bciPass deps ndofs st).finalized = bciPassFin deps ndofs st.finalized := by
  unfold bciPass bciPassFin
  generalize List.range ndofs = L
  induction L with
  | nil => intro st; rfl
  | cons a L ih =>
    intro st
    rw [List.foldl_cons, List.foldl_cons]
    by_cases h : (!st.finalized.getD a false &&
        DofFinalizable a st.finalized deps) = true
    · rw [if_pos h, if_pos h]
      exact ih _
    · rw [if_neg h, if_neg h]
      exact ih st

lemma bciLoop_finalized_length (deps : Nat → List (Nat × ℚ)) (ndofs : Nat) :
    ∀ (fuel : Nat) (st : BCIState),
      (bciLoop deps ndofs fuel st).finalized.length = st.finalized.length := by
  intro fuel
  induction fuel with
  | zero => intro st; rfl
  | succ fuel ih =>
    intro st
    show (if (bciPass deps ndofs st).finalized = st.finalized
          then bciPass deps ndofs st
          else bciLoop deps ndofs fuel (bciPass deps ndofs st)).finalized.length = _
    by_cases heq : (bciPass deps ndofs st).finalized = st.finalized
    · rw [if_pos heq, heq]
    · rw [if_neg heq, ih, bciPass_finalized, bciPassFin_length]

lemma bciLoop_stable (deps : Nat → List (Nat × ℚ)) (ndofs : Nat) :
    ∀ (fuel : Nat) (st : BCIState), st.finalized.length = ndofs →
      ndofs + 1 ≤ st.finalized.count true + fuel →
      bciPassFin deps ndofs (bciLoop deps ndofs fuel st).finalized =
        (bciLoop deps ndofs fuel st).finalized := by
  intro fuel
  induction fuel with
  | zero =>
    intro st hlen hcnt
    have hle : st.finalized.count true ≤ st.finalized.length :=
      List.count_le_length true st.finalized
    omega
  | succ fuel ih =>
    intro st hlen hcnt
    have hunfold : bciLoop deps ndofs (fuel + 1) st =
        (if (bciPass deps ndofs st).finalized = st.finalized
         then bciPass deps ndofs st
         else bciLoop deps ndofs fuel (bciPass deps ndofs st)) := rfl
    rw [hunfold]
    by_cases heq : (bciPass deps ndofs st).finalized = st.finalized
    · have hpf : bciPassFin deps ndofs st.finalized = st.finalized := by
        rw [← bciPass_finalized]; exact heq
      rw [if_pos heq, bciPass_finalized, hpf]
      exact hpf
    · have hne : bciPassFin deps ndofs st.finalized ≠ st.finalized := by
        rw [← bciPass_finalized]; exact heq
      have hlt : st.finalized.count true <
          (bciPassFin deps ndofs st.finalized).count true :=
        boolLe_count_lt (bciPassFin_boolLe deps ndofs st.finalized)
          (fun hc => hne hc.symm)
      rw [if_neg heq]
      refine ih (bciPass deps ndofs st) ?_ ?_
      · rw [bciPass_finalized, bciPassFin_length]
        exact hlen
      · rw [bciPass_finalized]
        omega

lemma bciInit_finalized_length (deps : Nat → List (Nat × ℚ)) (ndofs : Nat) :
    (bciInit deps ndofs).finalized.length = ndofs := by
  unfold bciInit
  simp

/-- C1: the finalization loop of `BuildConformingInterpolation`
terminates — the state reached within the `ndofs + 1` sweep budget is a
fixed point of the sweep, so no further DOF is ever finalizable — and
the build either aborts (`none`), returns the all-`NULL` identity
result, or returns with every one of the `ndofs` DOFs finalized
(`n_finalized == ndofs`); it never returns a partially filled `cP`. -/
theorem bci_finalization_terminates_total_or_abort (varOrder : Bool)
    (deps sped : Nat → List (Nat × ℚ)) (ndofs : Nat) :
    bciPassFin deps ndofs (bciFinalState deps ndofs).finalized =
      (bciFinalState deps ndofs).finalized ∧
    (BuildConformingInterpolation varOrder deps sped ndofs = none ∨
     BuildConformingInterpolation varOrder deps sped ndofs =
       some ⟨none, none, none⟩ ∨
     ((bciFinalState deps ndofs).finalized.count true = ndofs ∧
      (bciFinalState deps ndofs).finalized.all (fun b => b) = true)) := by
  have hfix : bciPassFin deps ndofs (bciFinalState deps ndofs).finalized =
      (bciFinalState deps ndofs).finalized := by
    apply bciLoop_stable deps ndofs (ndofs + 1) (bciInit deps ndofs)
      (bciInit_finalized_length deps ndofs)
    omega
  refine ⟨hfix, ?_⟩
  unfold BuildConformingInterpolation
  by_cases h1 : countTrueDofs deps ndofs = ndofs
  · rw [if_pos h1]
    exact Or.inr (Or.inl rfl)
  · rw [if_neg h1]
    by_cases h2 : (bciFinalState deps ndofs).finalized.count true = ndofs
    · refine Or.inr (Or.inr ⟨h2, ?_⟩)
      have hlen : (bciFinalState deps ndofs).finalized.length = ndofs := by
        unfold bciFinalState
        rw [bciLoop_finalized_length, bciInit_finalized_length]
      have hall : ∀ b ∈ (bciFinalState deps ndofs).finalized, true = b :=
        List.count_eq_length.mp (by rw [h2, hlen])
      rw [List.all_eq_true]
      intro b hb
      exact (hall b hb).symm
    · rw [if_neg h2]
      exact Or.inl rfl

/-- C2: if every DOF's dependency row is empty (`n_true_dofs ==
ndofs`), `BuildConformingInterpolation` leaves `cP`, `cR` and `cQ` all
`NULL`, and `GetConformingProlongation` / `GetConformingRestriction`
return `NULL` (to be treated as the identity), not an error. -/
theorem conforming_ops_absent_when_all_true (s : CSpace)
    (h : ∀ i, i < s.ndofs → s.deps i = []) :
    BuildConformingInterpolation s.varOrder s.deps s.sped s.ndofs =
      some ⟨none, none, none⟩ ∧
    GetConformingProlongation s = some none ∧
    GetConformingRestriction s = some none := by
  have hcnt : countTrueDofs s.deps s.ndofs = s.ndofs := by
    unfold countTrueDofs trueDofList
    rw [List.filter_eq_self.mpr, List.length_range]
    intro a ha
    rw [List.mem_range] at ha
    simp [h a ha]
  have hbci : BuildConformingInterpolation s.varOrder s.deps s.sped s.ndofs =
      some ⟨none, none, none⟩ := by
    unfold BuildConformingInterpolation
    rw [if_pos hcnt]
  refine ⟨hbci, ?_, ?_⟩
  · unfold GetConformingProlongation
    by_cases hc : s.conforming = true
    · rw [if_pos hc]
    · rw [if_neg hc, hbci]
      rfl
  · unfold GetConformingRestriction
    by_cases hc : s.conforming = true
    · rw [if_pos hc]
    · rw [if_neg hc, hbci]
      rfl

/-- Witness for C2 on a concrete dependency-free space. -/
theorem conforming_ops_absent_when_all_true_witness :
    (∀ i, i < allTrueSpace.ndofs → allTrueSpace.deps i = []) ∧
    (BuildConformingInterpolation allTrueSpace.varOrder allTrueSpace.deps
        allTrueSpace.sped allTrueSpace.ndofs = some ⟨none, none, none⟩ ∧
     GetConformingProlongation allTrueSpace = some none ∧
     GetConformingRestriction allTrueSpace = some none) :=
  ⟨fun _ _ => rfl,
   conforming_ops_absent_when_all_true allTrueSpace fun _ _ => rfl⟩

/-! ### C4: mask propagation is monotone on a bounded lattice and
terminates. -/

lemma minOrder_zero : MinOrder 0 = 0 := by
  unfold MinOrder
  rfl

lemma two_pow_minOrder_le (m : Nat) (h : m ≠ 0) : 2 ^ MinOrder m ≤ m := by
  induction m using Nat.strong_induction_on with
  | _ m ih =>
    unfold MinOrder
    rw [dif_neg h]
    by_cases hodd : m % 2 = 1
    · rw [if_pos hodd]
      omega
    · rw [if_neg hodd]
      have hhalf : m / 2 ≠ 0 := by omega
      have := ih (m / 2) (by omega) hhalf
      rw [pow_succ]
      omega

lemma testBit_eq_false_of_lt_minOrder (m : Nat) :
    ∀ k, k < MinOrder m → m.testBit k = false := by
  induction m using Nat.strong_induction_on with
  | _ m ih =>
    intro k hk
    by_cases h0 : m = 0
    · subst h0
      exact Nat.zero_testBit k
    · unfold MinOrder at hk
      rw [dif_neg h0] at hk
      by_cases hodd : m % 2 = 1
      · rw [if_pos hodd] at hk
        omega
      · rw [if_neg hodd] at hk
        cases k with
        | zero =>
          rw [Nat.testBit_zero]
          simp [hodd]
        | succ k =>
          rw [Nat.testBit_add_one]
          exact ih (m / 2) (by omega) k (by omega)

lemma nat_le_or_left (a b : Nat) : a ≤ a ||| b :=
  Nat.le_of_testBit fun i hi => by rw [Nat.testBit_or, hi, Bool.true_or]

lemma lt_or_two_pow_of_lt_minOrder (m mo : Nat) (h : mo < MinOrder m) :
    m < m ||| (1 <<< mo) := by
  refine Nat.lt_of_le_of_ne (nat_le_or_left m (1 <<< mo)) fun hc => ?_
  have hbit : (m ||| (1 <<< mo)).testBit mo = true := by
    rw [Nat.testBit_or, Nat.one_shiftLeft, Nat.testBit_two_pow_self,
      Bool.or_true]
  rw [← hc] at hbit
  rw [testBit_eq_false_of_lt_minOrder m mo h] at hbit
  exact Bool.false_ne_true hbit

lemma minOrder_lt_64 (m : Nat) (h0 : m ≠ 0) (hm : m < 2 ^ 64) :
    MinOrder m < 64 := by
  have h1 := two_pow_minOrder_le m h0
  by_contra hc
  have h2 : (2 : Nat) ^ 64 ≤ 2 ^ MinOrder m :=
    Nat.pow_le_pow_right (by omega) (by omega)
  omega

lemma or_two_pow_lt_64 (m mo : Nat) (hm : m < 2 ^ 64) (ho : mo < 64) :
    m ||| (1 <<< mo) < 2 ^ 64 := by
  rw [Nat.one_shiftLeft]
  exact Nat.or_lt_two_pow hm (Nat.pow_lt_pow_right (by omega) ho)

lemma maskInv_getD (l : List Nat) (hl : MaskInv l) (i : Nat) :
    l.getD i 0 < 2 ^ 64 := by
  by_cases h : i < l.length
  · have : l.getD i 0 = l[i] := by
      rw [List.getD_eq_getElem?_getD, List.getElem?_eq_getElem h]
      rfl
    rw [this]
    exact hl l[i] (List.getElem_mem h)
  · rw [List.getD_eq_default l 0 (by omega)]
    exact Nat.pos_pow_of_pos 64 (by omega)

lemma getD_ne_zero_lt_length (l : List Nat) (i : Nat)
    (h : l.getD i 0 ≠ 0) : i < l.length := by
  by_contra hc
  rw [List.getD_eq_default l 0 (by omega)] at h
  exact h rfl

lemma natList_getD_set (l : List Nat) (i j v : Nat) :
    (l.set i v).getD j 0 =
      if i = j ∧ i < l.length then v else l.getD j 0 := by
  rw [List.getD_eq_getElem?_getD, List.getD_eq_getElem?_getD,
    List.getElem?_set]
  by_cases hij : i = j
  · subst hij
    by_cases hlen : i < l.length
    · rw [if_pos rfl, if_pos hlen, if_pos ⟨rfl, hlen⟩]
      rfl
    · rw [if_pos rfl, if_neg hlen, if_neg (by omega)]
      rw [List.getElem?_eq_none (by omega)]
  · rw [if_neg hij, if_neg (by simp [hij])]

lemma sum_set_of_getD_lt (l : List Nat) (i v : Nat) (hi : i < l.length)
    (hv : l.getD i 0 < v) : l.sum < (l.set i v).sum := by
  induction l generalizing i with
  | nil => simp at hi
  | cons a t ih =>
    cases i with
    | zero =>
      simp only [List.set_cons_zero, List.sum_cons]
      simp only [List.getD_cons_zero] at hv
      omega
    | succ n =>
      simp only [List.set_cons_succ, List.sum_cons]
      simp only [List.getD_cons_succ] at hv
      have := ih n (by simpa using hi) hv
      omega

lemma set_getD_self (l : List Nat) (i : Nat) : l.set i (l.getD i 0) = l := by
  apply List.ext_getElem?
  intro j
  rw [List.getElem?_set]
  by_cases hij : i = j
  · subst hij
    by_cases hlen : i < l.length
    · rw [if_pos rfl, if_pos hlen, List.getElem?_eq_getElem hlen,
        List.getD_eq_getElem?_getD, List.getElem?_eq_getElem hlen]
      rfl
    · rw [if_pos rfl, if_neg hlen, List.getElem?_eq_none (by omega)]
  · rw [if_neg hij]

lemma sum_le_of_maskInv (l : List Nat) (hl : MaskInv l) :
    l.sum ≤ l.length * (2 ^ 64 - 1) := by
  induction l with
  | nil => simp
  | cons a t ih =>
    have ha := hl a (List.mem_cons_self a t)
    have ht := ih fun x hx => hl x (List.mem_cons_of_mem a hx)
    simp only [List.sum_cons, List.length_cons]
    have : (t.length + 1) * (2 ^ 64 - 1) =
        t.length * (2 ^ 64 - 1) + (2 ^ 64 - 1) := by ring
    omega

lemma maskGrow_refl (l : List Nat) : MaskGrow l l :=
  ⟨rfl, fun _ => Nat.or_self _, id, Or.inl rfl⟩

lemma maskGrow_sum_le {a b : List Nat} (h : MaskGrow a b) : a.sum ≤ b.sum := by
  rcases h.2.2.2 with heq | hlt
  · rw [heq]
  · omega

lemma maskGrow_trans {a b c : List Nat} (hab : MaskGrow a b)
    (hbc : MaskGrow b c) : MaskGrow a c := by
  obtain ⟨hl1, hs1, hi1, hd1⟩ := hab
  obtain ⟨hl2, hs2, hi2, hd2⟩ := hbc
  refine ⟨by omega, ?_, fun h => hi2 (hi1 h), ?_⟩
  · intro i
    have h1 := hs1 i
    have h2 := hs2 i
    calc a.getD i 0 ||| c.getD i 0
        = a.getD i 0 ||| (b.getD i 0 ||| c.getD i 0) := by rw [h2]
      _ = a.getD i 0 ||| b.getD i 0 ||| c.getD i 0 := by
          rw [Nat.or_assoc]
      _ = b.getD i 0 ||| c.getD i 0 := by rw [h1]
      _ = c.getD i 0 := h2
  · rcases hd1 with h1 | h1
    · rcases hd2 with h2 | h2
      · exact Or.inl (by rw [h2, h1])
      · rw [h1] at h2
        exact Or.inr h2
    · rcases hd2 with h2 | h2
      · rw [h2]
        exact Or.inr h1
      · exact Or.inr (by omega)

lemma maskGrowD_refl (st : List Nat × Bool) : MaskGrowD st st :=
  ⟨maskGrow_refl st.1, Or.inl rfl⟩

lemma maskGrowD_trans {a b c : List Nat × Bool} (hab : MaskGrowD a b)
    (hbc : MaskGrowD b c) : MaskGrowD a c := by
  obtain ⟨hg1, hd1⟩ := hab
  obtain ⟨hg2, hd2⟩ := hbc
  refine ⟨maskGrow_trans hg1 hg2, ?_⟩
  rcases hd1 with h1 | ⟨hf1, hs1⟩
  · rcases hd2 with h2 | ⟨hf2, hs2⟩
    · exact Or.inl (by rw [h2, h1])
    · exact Or.inr ⟨hf2, h1 ▸ hs2⟩
  · rcases hd2 with h2 | ⟨hf2, hs2⟩
    · rw [h2]
      exact Or.inr ⟨hf1, hs1⟩
    · have := maskGrow_sum_le hg2
      exact Or.inr ⟨hf2, by omega⟩

lemma or_absorb_left (a b : Nat) : a ||| (a ||| b) = a ||| b := by
  rw [← Nat.or_assoc, Nat.or_self]

lemma maskGrow_orSet (l : List Nat) (e w : Nat) (hw : w < 2 ^ 64) :
    MaskGrow l (l.set e (l.getD e 0 ||| w)) := by
  by_cases he : e < l.length
  · refine ⟨List.length_set l e _, ?_, ?_, ?_⟩
    · intro i
      rw [natList_getD_set]
      by_cases hei : e = i ∧ e < l.length
      · rw [if_pos hei, hei.1, or_absorb_left]
      · rw [if_neg hei, Nat.or_self]
    · intro hinv x hx
      rcases List.mem_or_eq_of_mem_set hx with hmem | hval
      · exact hinv x hmem
      · rw [hval]
        exact Nat.or_lt_two_pow (maskInv_getD l hinv e) hw
    · by_cases hsub : l.getD e 0 ||| w = l.getD e 0
      · rw [hsub, set_getD_self]
        exact Or.inl rfl
      · refine Or.inr (sum_set_of_getD_lt l e _ he ?_)
        exact Nat.lt_of_le_of_ne (nat_le_or_left _ w) (Ne.symm hsub)
  · rw [List.set_eq_of_length_le (by omega)]
    exact maskGrow_refl l

lemma maskGrowD_propagateMinOrder (st : List Nat × Bool) (m so : Nat) :
    MaskGrowD st (propagateMinOrder st m so) := by
  unfold propagateMinOrder
  by_cases hc : MinOrder so < MinOrder (st.1.getD m 0)
  · rw [if_pos hc]
    have hne0 : st.1.getD m 0 ≠ 0 := by
      intro h0
      rw [h0, minOrder_zero] at hc
      omega
    have hm : m < st.1.length := getD_ne_zero_lt_length st.1 m hne0
    have hlt : st.1.getD m 0 < st.1.getD m 0 ||| (1 <<< MinOrder so) :=
      lt_or_two_pow_of_lt_minOrder _ _ hc
    have hsum : st.1.sum <
        (st.1.set m (st.1.getD m 0 ||| (1 <<< MinOrder so))).sum :=
      sum_set_of_getD_lt st.1 m _ hm hlt
    refine ⟨⟨List.length_set st.1 m _, ?_, ?_, Or.inr hsum⟩,
      Or.inr ⟨rfl, hsum⟩⟩
    · intro i
      rw [natList_getD_set]
      by_cases hmi : m = i ∧ m < st.1.length
      · rw [if_pos hmi, hmi.1, or_absorb_left]
      · rw [if_neg hmi, Nat.or_self]
    · intro hinv x hx
      rcases List.mem_or_eq_of_mem_set hx with hmem | hval
      · exact hinv x hmem
      · rw [hval]
        have hmlt : st.1.getD m 0 < 2 ^ 64 := maskInv_getD st.1 hinv m
        exact or_two_pow_lt_64 _ _ hmlt
          (by have := minOrder_lt_64 _ hne0 hmlt; omega)
  · rw [if_neg hc]
    exact maskGrowD_refl st

lemma foldl_maskGrow {β : Type} (f : List Nat → β → List Nat)
    (hf : ∀ l x, MaskGrow l (f l x)) :
    ∀ (L : List β) (l : List Nat), MaskGrow l (L.foldl f l) := by
  intro L
  induction L with
  | nil => intro l; exact maskGrow_refl l
  | cons a L ih =>
    intro l
    rw [List.foldl_cons]
    exact maskGrow_trans (hf l a) (ih (f l a))

lemma foldl_maskGrowD {β : Type}
    (f : (List Nat × Bool) → β → (List Nat × Bool))
    (hf : ∀ st x, MaskGrowD st (f st x)) :
    ∀ (L : List β) (st : List Nat × Bool), MaskGrowD st (L.foldl f st) := by
  intro L
  induction L with
  | nil => intro st; exact maskGrowD_refl st
  | cons a L ih =>
    intro st
    rw [List.foldl_cons]
    exact maskGrowD_trans (hf st a) (ih (f st a))

lemma maskGrowD_edgeMasters (info : NCInfo) (st : List Nat × Bool) :
    MaskGrowD st (propagateEdgeMasters info st) := by
  unfold propagateEdgeMasters
  exact foldl_maskGrowD _
    (fun st m => maskGrowD_propagateMinOrder st m.1
      (slaveOrdersEdge st.1 m.2))
    info.edgeMasters st

lemma maskGrowD_faceMasters (info : NCInfo) (eo : List Nat)
    (st : List Nat × Bool) :
    MaskGrowD st (propagateFaceMasters info eo st) := by
  unfold propagateFaceMasters
  exact foldl_maskGrowD _
    (fun st m => maskGrowD_propagateMinOrder st m.1
      (slaveOrdersFace info eo st.1 m.2))
    info.faceMasters st

lemma maskGrow_push (info : NCInfo) (eo fo : List Nat)
    (hfo : MaskInv fo) : MaskGrow eo (pushFaceOrdersToEdges info eo fo) := by
  unfold pushFaceOrdersToEdges
  exact foldl_maskGrow _
    (fun eo i => foldl_maskGrow _
      (fun l e => maskGrow_orSet l e (fo.getD i 0) (maskInv_getD fo hfo i))
      (info.faceEdges i) eo)
    (List.range info.nFaces) eo

lemma calcPass_spec (info : NCInfo) (eo fo : List Nat)
    (hfo : MaskInv fo) :
    MaskGrow eo (calcPass info eo fo).1 ∧
    MaskGrow fo (calcPass info eo fo).2.1 ∧
    (calcPass info eo fo = (eo, fo, true) ∨
      eo.sum + fo.sum <
        (calcPass info eo fo).1.sum + (calcPass info eo fo).2.1.sum) := by
  set E := propagateEdgeMasters info (eo, true) with hE
  set F := propagateFaceMasters info E.1 (fo, E.2) with hF
  set P := pushFaceOrdersToEdges info E.1 F.1 with hP
  have hcp : calcPass info eo fo = (P, F.1, F.2) := rfl
  obtain ⟨hgE, hdE⟩ := maskGrowD_edgeMasters info (eo, true)
  obtain ⟨hgF, hdF⟩ := maskGrowD_faceMasters info E.1 (fo, E.2)
  have hgE' : MaskGrow eo E.1 := hgE
  have hgF' : MaskGrow fo F.1 := hgF
  have hFinv : MaskInv F.1 := hgF'.2.2.1 hfo
  have hgP : MaskGrow E.1 P := maskGrow_push info E.1 F.1 hFinv
  rw [hcp]
  refine ⟨maskGrow_trans hgE' hgP, hgF', ?_⟩
  have hsE : eo.sum ≤ E.1.sum := maskGrow_sum_le hgE'
  have hsF : fo.sum ≤ F.1.sum := maskGrow_sum_le hgF'
  have hsP : E.1.sum ≤ P.sum := maskGrow_sum_le hgP
  rcases hdE with hE1 | ⟨_, hEs⟩
  · rw [← hE] at hE1
    rcases hdF with hF1 | ⟨_, hFs⟩
    · rw [← hF] at hF1
      rcases hgP.2.2.2 with hP1 | hPs
      · left
        rw [hP1, hF1, hE1]
      · right
        show eo.sum + fo.sum < P.sum + F.1.sum
        have hEeo : E.1.sum = eo.sum := by rw [hE1]
        have hFfo : F.1.sum = fo.sum := by rw [hF1]
        omega
    · right
      show eo.sum + fo.sum < P.sum + F.1.sum
      have hFs' : fo.sum < F.1.sum := hFs
      omega
  · right
    show eo.sum + fo.sum < P.sum + F.1.sum
    have hEs' : eo.sum < E.1.sum := hEs
    omega

lemma foldl_preserves {α β : Type} (P : α → Prop) (f : α → β → α)
    (hf : ∀ a x, P a → P (f a x)) :
    ∀ (L : List β) (a : α), P a → P (L.foldl f a) := by
  intro L
  induction L with
  | nil => intro a ha; exact ha
  | cons x L ih =>
    intro a ha
    rw [List.foldl_cons]
    exact ih (f a x) (hf a x ha)

lemma initialOrders_spec (info : NCInfo)
    (hord : ∀ i, info.elemOrder i ≤ 63) :
    MaskInv (initialOrders info).1 ∧ MaskInv (initialOrders info).2 ∧
    (initialOrders info).1.length = info.nEdges ∧
    (initialOrders info).2.length = info.nFaces := by
  unfold initialOrders
  apply foldl_preserves
    (P := fun st : List Nat × List Nat => MaskInv st.1 ∧ MaskInv st.2 ∧
      st.1.length = info.nEdges ∧ st.2.length = info.nFaces)
  · intro st i ⟨hi1, hi2, hn1, hn2⟩
    have hmask : 1 <<< info.elemOrder i < 2 ^ 64 := by
      rw [Nat.one_shiftLeft]
      exact Nat.pow_lt_pow_right (by omega) (by have := hord i; omega)
    have hge : MaskGrow st.1 ((info.elemEdges i).foldl
        (fun eo e => eo.set e (eo.getD e 0 ||| 1 <<< info.elemOrder i))
        st.1) :=
      foldl_maskGrow _ (fun l e => maskGrow_orSet l e _ hmask) _ st.1
    have hgf : MaskGrow st.2 (if info.dim > 2 then
        (info.elemFaces i).foldl
          (fun fo f => fo.set f (fo.getD f 0 ||| 1 <<< info.elemOrder i))
          st.2
      else st.2) := by
      by_cases hd : info.dim > 2
      · rw [if_pos hd]
        exact foldl_maskGrow _ (fun l e => maskGrow_orSet l e _ hmask) _ st.2
      · rw [if_neg hd]
        exact maskGrow_refl st.2
    exact ⟨hge.2.2.1 hi1, hgf.2.2.1 hi2, by rw [hge.1, hn1],
      by rw [hgf.1, hn2]⟩
  · refine ⟨?_, ?_, by simp, by simp⟩
    · intro x hx
      rw [List.eq_of_mem_replicate hx]
      exact Nat.pos_pow_of_pos 64 (by omega)
    · intro x hx
      rw [List.eq_of_mem_replicate hx]
      exact Nat.pos_pow_of_pos 64 (by omega)

lemma calcOrdersLoop_exit (info : NCInfo) :
    ∀ (fuel : Nat) (st : List Nat × List Nat),
      MaskInv st.1 → MaskInv st.2 →
      st.1.length = info.nEdges → st.2.length = info.nFaces →
      info.nEdges * (2 ^ 64 - 1) + info.nFaces * (2 ^ 64 - 1) + 1 ≤
        st.1.sum + st.2.sum + fuel →
      ∃ eo0 fo0, calcPass info eo0 fo0 =
        ((calcOrdersLoop info fuel st).1,
          (calcOrdersLoop info fuel st).2, true) := by
  intro fuel
  induction fuel with
  | zero =>
    intro st h1 h2 hl1 hl2 hbud
    have c1 := sum_le_of_maskInv st.1 h1
    have c2 := sum_le_of_maskInv st.2 h2
    rw [hl1] at c1
    rw [hl2] at c2
    generalize hX : info.nEdges * (2 ^ 64 - 1) = X at c1 hbud
    generalize hY : info.nFaces * (2 ^ 64 - 1) = Y at c2 hbud
    omega
  | succ fuel ih =>
    intro st h1 h2 hl1 hl2 hbud
    have hunfold : calcOrdersLoop info (fuel + 1) st =
        (if (calcPass info st.1 st.2).2.2 then
          ((calcPass info st.1 st.2).1, (calcPass info st.1 st.2).2.1)
        else calcOrdersLoop info fuel
          ((calcPass info st.1 st.2).1, (calcPass info st.1 st.2).2.1)) :=
      rfl
    obtain ⟨hgE, hgF, hdich⟩ := calcPass_spec info st.1 st.2 h2
    by_cases hdone : (calcPass info st.1 st.2).2.2 = true
    · rw [hunfold, if_pos hdone]
      refine ⟨st.1, st.2, ?_⟩
      exact Prod.ext rfl (Prod.ext rfl hdone)
    · rw [hunfold, if_neg hdone]
      have hstrict : st.1.sum + st.2.sum <
          (calcPass info st.1 st.2).1.sum +
            (calcPass info st.1 st.2).2.1.sum := by
        rcases hdich with hid | hstrict
        · exact absurd (by rw [hid]) hdone
        · exact hstrict
      apply ih
      · exact hgE.2.2.1 h1
      · exact hgF.2.2.1 h2
      · rw [hgE.1]
        exact hl1
      · rw [hgF.1]
        exact hl2
      · show info.nEdges * (2 ^ 64 - 1) + info.nFaces * (2 ^ 64 - 1) + 1 ≤
          (calcPass info st.1 st.2).1.sum +
            (calcPass info st.1 st.2).2.1.sum + fuel
        generalize hX : info.nEdges * (2 ^ 64 - 1) = X at hbud ⊢
        generalize hY : info.nFaces * (2 ^ 64 - 1) = Y at hbud ⊢
        omega

/-- C4: order-mask propagation is a monotone iteration on the bounded
64-bit mask lattice and terminates.  Each sweep either changes no
edge/face bitmask and reports `done` — exiting the loop — or OR-grows
the masks entry-wise, strictly enlarging at least one of them; and for
every mesh with admissible element orders the loop reaches its `done`
exit within the sweep budget, the returned masks being those of a
`done` sweep. -/
theorem calcEdgeFaceVarOrders_monotone_terminates (info : NCInfo)
    (hord : ∀ i, info.elemOrder i ≤ 63) :
    (∀ eo fo, MaskInv eo → MaskInv fo →
      (calcPass info eo fo = (eo, fo, true) ∨
        (masksSub eo (calcPass info eo fo).1 ∧
         masksSub fo (calcPass info eo fo).2.1 ∧
         eo.sum + fo.sum <
           (calcPass info eo fo).1.sum +
             (calcPass info eo fo).2.1.sum))) ∧
    (info.relaxedHp = false →
      ∃ eo0 fo0, calcPass info eo0 fo0 =
        ((CalcEdgeFaceVarOrders info).1, (CalcEdgeFaceVarOrders info).2,
          true)) := by
  constructor
  · intro eo fo _ hfo
    obtain ⟨hgE, hgF, hdich⟩ := calcPass_spec info eo fo hfo
    rcases hdich with hid | hstrict
    · exact Or.inl hid
    · exact Or.inr ⟨hgE.2.1, hgF.2.1, hstrict⟩
  · intro hrel
    obtain ⟨hi1, hi2, hn1, hn2⟩ := initialOrders_spec info hord
    have hres : CalcEdgeFaceVarOrders info =
        calcOrdersLoop info ((info.nEdges + info.nFaces) * 2 ^ 64 + 1)
          (initialOrders info) := by
      unfold CalcEdgeFaceVarOrders
      rw [hrel]
      rfl
    rw [hres]
    apply calcOrdersLoop_exit info _ (initialOrders info) hi1 hi2 hn1 hn2
    have hexp : (info.nEdges + info.nFaces) * 2 ^ 64 =
        info.nEdges * 2 ^ 64 + info.nFaces * 2 ^ 64 := by ring
    have h1 : info.nEdges * (2 ^ 64 - 1) ≤ info.nEdges * 2 ^ 64 :=
      Nat.mul_le_mul_left _ (by omega)
    have h2 : info.nFaces * (2 ^ 64 - 1) ≤ info.nFaces * 2 ^ 64 :=
      Nat.mul_le_mul_left _ (by omega)
    omega

/-- Witness for C4 on a concrete two-edge mesh with one master/slave
edge pair. -/
theorem calcEdgeFaceVarOrders_monotone_terminates_witness :
    (∀ i, testNCInfo.elemOrder i ≤ 63) ∧
    ((∀ eo fo, MaskInv eo → MaskInv fo →
      (calcPass testNCInfo eo fo = (eo, fo, true) ∨
        (masksSub eo (calcPass testNCInfo eo fo).1 ∧
         masksSub fo (calcPass testNCInfo eo fo).2.1 ∧
         eo.sum + fo.sum <
           (calcPass testNCInfo eo fo).1.sum +
             (calcPass testNCInfo eo fo).2.1.sum))) ∧
    (testNCInfo.relaxedHp = false →
      ∃ eo0 fo0, calcPass testNCInfo eo0 fo0 =
        ((CalcEdgeFaceVarOrders testNCInfo).1,
          (CalcEdgeFaceVarOrders testNCInfo).2, true))) :=
  ⟨fun _ => (by decide : (2 : Nat) ≤ 63),
   calcEdgeFaceVarOrders_monotone_terminates testNCInfo
     fun _ => (by decide : (2 : Nat) ≤ 63)⟩

/-! ### C9: `RefinementOperator::MultTranspose` is the transpose of
`Mult`. -/

lemma intDecode_of_nonneg {d : Int} (h : 0 ≤ d) : intDecode d = d.toNat := by
  unfold intDecode DecodeDof
  rw [if_neg (by omega)]

lemma intDecode_of_neg {d : Int} (h : d < 0) : intDecode d = (-1 - d).toNat := by
  unfold intDecode DecodeDof
  rw [if_pos h]

lemma getSub_length (x : Nat → ℚ) (dofs : List Int) :
    (getSub x dofs).length = dofs.length := by
  simp [getSub]

lemma map_range_getD (f : Nat → ℚ) (n q : Nat) (hq : q < n) :
    ((List.range n).map f).getD q 0 = f q := by
  rw [List.getD_eq_getElem?_getD, List.getElem?_map, List.getElem?_range hq]
  rfl

lemma getD_map_intDecode (dofs : List Int) (p : Nat) (hp : p < dofs.length) :
    (dofs.map intDecode).getD p 0 = intDecode (dofs.getD p 0) := by
  rw [List.getD_eq_getElem?_getD, List.getElem?_map,
    List.getElem?_eq_getElem hp, List.getD_eq_getElem?_getD,
    List.getElem?_eq_getElem hp]
  rfl

lemma getSub_getD (x : Nat → ℚ) (l : List Int) (p : Nat) (hp : p < l.length) :
    (getSub x l).getD p 0 =
      sgnOf (l.getD p 0) * x (intDecode (l.getD p 0)) := by
  unfold getSub
  rw [List.getD_eq_getElem?_getD, List.getElem?_map,
    List.getElem?_eq_getElem hp]
  have hgd : l.getD p 0 = l[p] := by
    rw [List.getD_eq_getElem?_getD, List.getElem?_eq_getElem hp]
    rfl
  rw [← hgd]
  simp only [Option.map_some', Option.getD_some]
  by_cases hd : 0 ≤ l.getD p 0
  · rw [if_pos hd]
    unfold sgnOf
    rw [if_pos hd, intDecode_of_nonneg hd, one_mul]
  · rw [if_neg hd]
    unfold sgnOf
    rw [if_neg hd, intDecode_of_neg (by omega), neg_one_mul]

lemma matVec_length (A : Nat → Nat → ℚ) (rows : Nat) (v : List ℚ) :
    (matVec A rows v).length = rows := by
  simp [matVec]

lemma matTVec_length (A : Nat → Nat → ℚ) (cols : Nat) (v : List ℚ) :
    (matTVec A cols v).length = cols := by
  simp [matTVec]

lemma elemWriteVals_length (x : Nat → ℚ) (e : RefElem) :
    (elemWriteVals x e).length = e.fdofs.length := by
  simp [elemWriteVals, matVec]

lemma writeVal_eq_sgn (x : Nat → ℚ) (e : RefElem) (p : Nat) :
    writeVal x e p = sgnOf (e.fdofs.getD p 0) * (elemWriteVals x e).getD p 0 := by
  unfold writeVal sgnOf
  by_cases hd : 0 ≤ e.fdofs.getD p 0
  · rw [if_pos hd, if_pos hd, one_mul]
  · rw [if_neg hd, if_neg hd, neg_one_mul]

lemma dot_update (n : Nat) (x y : Nat → ℚ) (i : Nat) (hi : i < n) (c : ℚ) :
    dot n x (Function.update y i c) = dot n x y + x i * (c - y i) := by
  unfold dot
  have hmem : i ∈ Finset.range n := Finset.mem_range.mpr hi
  rw [Finset.sum_eq_sum_diff_singleton_add hmem
      (f := fun j => x j * Function.update y i c j),
    Finset.sum_eq_sum_diff_singleton_add hmem (f := fun j => x j * y j)]
  have hcongr : ∑ j ∈ Finset.range n \ {i}, x j * Function.update y i c j =
      ∑ j ∈ Finset.range n \ {i}, x j * y j := by
    apply Finset.sum_congr rfl
    intro j hj
    have hne : j ≠ i := by
      have := (Finset.mem_sdiff.mp hj).2
      simpa using this
    rw [Function.update_noteq hne]
  rw [hcongr, Function.update_same]
  ring

lemma addSub_cons (y : Nat → ℚ) (d : Int) (v : ℚ) (ds : List Int)
    (vs : List ℚ) :
    addSub y (d :: ds) (v :: vs) =
      addSub (Function.update y (intDecode d)
        (y (intDecode d) + sgnOf d * v)) ds vs := by
  unfold addSub
  rw [List.zip_cons_cons, List.foldl_cons]
  congr 1
  by_cases hd : 0 ≤ d
  · rw [if_pos hd, intDecode_of_nonneg hd]
    unfold sgnOf
    rw [if_pos hd, one_mul]
  · rw [if_neg hd, intDecode_of_neg (by omega)]
    unfold sgnOf
    rw [if_neg hd]
    ring_nf

lemma setSub_cons (y : Nat → ℚ) (d : Int) (v : ℚ) (ds : List Int)
    (vs : List ℚ) :
    setSub y (d :: ds) (v :: vs) =
      setSub (Function.update y (intDecode d) (sgnOf d * v)) ds vs := by
  unfold setSub
  rw [List.zip_cons_cons, List.foldl_cons]
  congr 1
  by_cases hd : 0 ≤ d
  · rw [if_pos hd, intDecode_of_nonneg hd]
    unfold sgnOf
    rw [if_pos hd, one_mul]
  · rw [if_neg hd, intDecode_of_neg (by omega)]
    unfold sgnOf
    rw [if_neg hd, neg_one_mul]

lemma dot_addSub (n : Nat) (x : Nat → ℚ) :
    ∀ (dofs : List Int) (vals : List ℚ) (y : Nat → ℚ),
      (∀ d ∈ dofs, intDecode d < n) → vals.length = dofs.length →
      dot n x (addSub y dofs vals) = dot n x y +
        ∑ p ∈ Finset.range dofs.length,
          sgnOf (dofs.getD p 0) * x (intDecode (dofs.getD p 0)) *
            vals.getD p 0 := by
  intro dofs
  induction dofs with
  | nil =>
    intro vals y _ _
    simp [addSub]
  | cons d ds ih =>
    intro vals y hb hlen
    cases vals with
    | nil => simp at hlen
    | cons v vs =>
      rw [addSub_cons,
        ih vs _ (fun d' hd' => hb d' (List.mem_cons_of_mem _ hd'))
          (by simpa using hlen),
        dot_update n x y (intDecode d) (hb d (List.mem_cons_self d ds)) _]
      simp only [List.length_cons]
      rw [Finset.sum_range_succ']
      simp only [List.getD_cons_succ, List.getD_cons_zero]
      ring

lemma getD_mem_of_lt {α : Type} [Inhabited α] (l : List α) (p : Nat)
    (d0 : α) (hp : p < l.length) : l.getD p d0 ∈ l := by
  have : l.getD p d0 = l[p] := by
    rw [List.getD_eq_getElem?_getD, List.getElem?_eq_getElem hp]
    rfl
  rw [this]
  exact List.getElem_mem hp

lemma setSub_apply_ne :
    ∀ (ds : List Int) (vs : List ℚ) (y : Nat → ℚ) (j : Nat),
      (∀ p, p < ds.length → intDecode (ds.getD p 0) ≠ j) →
      setSub y ds vs j = y j := by
  intro ds
  induction ds with
  | nil => intro vs y j _; rfl
  | cons d ds ih =>
    intro vs y j hne
    cases vs with
    | nil =>
      show ((d :: ds).zip ([] : List ℚ)).foldl _ y j = y j
      rw [List.zip_nil_right]
      rfl
    | cons v vs =>
      rw [setSub_cons]
      rw [ih vs _ j fun p hp => by
        have := hne (p + 1) (by simpa using Nat.succ_lt_succ hp)
        simpa using this]
      have h0 : intDecode d ≠ j := by
        have := hne 0 (by simp)
        simpa using this
      exact Function.update_noteq (Ne.symm h0) _ y

lemma setSub_apply_at :
    ∀ (ds : List Int) (vs : List ℚ) (y : Nat → ℚ) (p : Nat),
      (ds.map intDecode).Nodup → vs.length = ds.length →
      p < ds.length →
      setSub y ds vs (intDecode (ds.getD p 0)) =
        sgnOf (ds.getD p 0) * vs.getD p 0 := by
  intro ds
  induction ds with
  | nil => intro vs y p _ _ hp; simp at hp
  | cons d ds ih =>
    intro vs y p hnd hlen hp
    cases vs with
    | nil => simp at hlen
    | cons v vs =>
      rw [List.map_cons, List.nodup_cons] at hnd
      rw [setSub_cons]
      cases p with
      | zero =>
        simp only [List.getD_cons_zero]
        rw [setSub_apply_ne ds vs _ (intDecode d) ?hne]
        · exact Function.update_same _ _ _
        case hne =>
          intro q hq
          intro hc
          apply hnd.1
          rw [← hc]
          exact List.mem_map_of_mem intDecode (getD_mem_of_lt ds q 0 hq)
      | succ p =>
        simp only [List.getD_cons_succ]
        exact ih vs _ p hnd.2 (by simpa using hlen) (by simpa using hp)

lemma writeConsistent_append {L : List RefElem} {e0 : RefElem}
    (h : WriteConsistent (L ++ [e0])) : WriteConsistent L :=
  fun x e1 e2 p1 p2 h1 h2 hp1 hp2 hd =>
    h x e1 e2 p1 p2 (List.mem_append_left _ h1)
      (List.mem_append_left _ h2) hp1 hp2 hd

lemma refinementMult_value (x y0 : Nat → ℚ) :
    ∀ (elems : List RefElem), WriteConsistent elems →
      (∀ e ∈ elems, (e.fdofs.map intDecode).Nodup) →
      ∀ e p, e ∈ elems → p < e.fdofs.length →
      RefinementMult elems x y0 (intDecode (e.fdofs.getD p 0)) =
        writeVal x e p := by
  intro elems
  induction elems using List.reverseRecOn with
  | nil =>
    intro _ _ e p he
    simp at he
  | append_singleton L e0 ih =>
    intro hagree hnd e p he hp
    have hsplit : RefinementMult (L ++ [e0]) x y0 =
        setSub (RefinementMult L x y0) e0.fdofs (elemWriteVals x e0) := by
      unfold RefinementMult
      rw [List.foldl_append]
      rfl
    rw [hsplit]
    by_cases hje0 : ∃ q, q < e0.fdofs.length ∧
        intDecode (e0.fdofs.getD q 0) = intDecode (e.fdofs.getD p 0)
    · obtain ⟨q, hq, hqj⟩ := hje0
      rw [← hqj,
        setSub_apply_at e0.fdofs (elemWriteVals x e0) _ q
          (hnd e0 (List.mem_append_right _ (List.mem_singleton_self e0)))
          (by rw [elemWriteVals_length]) hq,
        ← writeVal_eq_sgn]
      exact hagree x e0 e q p
        (List.mem_append_right _ (List.mem_singleton_self e0)) he hq hp hqj
    · push_neg at hje0
      rw [setSub_apply_ne e0.fdofs (elemWriteVals x e0) _ _
        fun q hq => hje0 q hq]
      have heL : e ∈ L := by
        rcases List.mem_append.mp he with h | h
        · exact h
        · rw [List.mem_singleton] at h
          subst h
          exact absurd rfl (hje0 p hp)
      exact ih (writeConsistent_append hagree)
        (fun e' he' => hnd e' (List.mem_append_left _ he')) e p heL hp

lemma sum_range_getD_toFinset (l : List Nat) (g : Nat → ℚ)
    (hnd : l.Nodup) :
    ∑ p ∈ Finset.range l.length, g (l.getD p 0) =
      ∑ j ∈ l.toFinset, g j := by
  induction l with
  | nil => simp
  | cons a l ih =>
    simp only [List.length_cons]
    rw [Finset.sum_range_succ']
    simp only [List.getD_cons_succ, List.getD_cons_zero]
    rw [ih (List.nodup_cons.mp hnd).2, List.toFinset_cons,
      Finset.sum_insert (by
        rw [List.mem_toFinset]
        exact (List.nodup_cons.mp hnd).1)]
    ring

lemma dot_multTStep (w x : Nat → ℚ) (ncoarse : Nat) (e : RefElem)
    (y : Nat → ℚ) (S : Nat → Bool) (Y : Nat → ℚ)
    (hY : ∀ p, p < e.fdofs.length →
      Y (intDecode (e.fdofs.getD p 0)) = writeVal x e p)
    (hnd : (e.fdofs.map intDecode).Nodup)
    (hcb : ∀ d ∈ e.cdofs, intDecode d < ncoarse) :
    dot ncoarse x (multTStep w (y, S) e).1 =
      dot ncoarse x y +
      ∑ j ∈ (e.fdofs.map intDecode).toFinset.filter
        (fun j => S j = false), w j * Y j := by
  have hsub : (multTStep w (y, S) e).1 =
      addSub y e.cdofs (matTVec e.lP e.cdofs.length
        ((List.range e.fdofs.length).map fun p =>
          if S (intDecode (e.fdofs.getD p 0)) then 0
          else (getSub w e.fdofs).getD p 0)) := rfl
  rw [hsub, dot_addSub ncoarse x e.cdofs _ y hcb (matTVec_length _ _ _)]
  congr 1
  set subX := (List.range e.fdofs.length).map fun p =>
    if S (intDecode (e.fdofs.getD p 0)) then 0
    else (getSub w e.fdofs).getD p 0 with hsubX
  have hsubXlen : subX.length = e.fdofs.length := by
    rw [hsubX, List.length_map, List.length_range]
  have step1 : ∀ q ∈ Finset.range e.cdofs.length,
      sgnOf (e.cdofs.getD q 0) * x (intDecode (e.cdofs.getD q 0)) *
        (matTVec e.lP e.cdofs.length subX).getD q 0 =
      ∑ i ∈ Finset.range e.fdofs.length,
        sgnOf (e.cdofs.getD q 0) * x (intDecode (e.cdofs.getD q 0)) *
          (e.lP i q * subX.getD i 0) := by
    intro q hq
    rw [Finset.mem_range] at hq
    rw [show (matTVec e.lP e.cdofs.length subX).getD q 0 =
        ∑ i ∈ Finset.range subX.length, e.lP i q * subX.getD i 0 from
        map_range_getD _ _ _ hq,
      hsubXlen, Finset.mul_sum]
  rw [Finset.sum_congr rfl step1, Finset.sum_comm]
  have step2 : ∀ i ∈ Finset.range e.fdofs.length,
      (∑ q ∈ Finset.range e.cdofs.length,
        sgnOf (e.cdofs.getD q 0) * x (intDecode (e.cdofs.getD q 0)) *
          (e.lP i q * subX.getD i 0)) =
      subX.getD i 0 * (elemWriteVals x e).getD i 0 := by
    intro i hi
    rw [Finset.mem_range] at hi
    have hv : (elemWriteVals x e).getD i 0 =
        ∑ j ∈ Finset.range (getSub x e.cdofs).length,
          e.lP i j * (getSub x e.cdofs).getD j 0 :=
      map_range_getD _ _ _ hi
    rw [hv, getSub_length, Finset.mul_sum]
    apply Finset.sum_congr rfl
    intro q hq
    rw [Finset.mem_range] at hq
    rw [getSub_getD x e.cdofs q hq]
    ring
  rw [Finset.sum_congr rfl step2]
  have step3 : ∀ i ∈ Finset.range e.fdofs.length,
      subX.getD i 0 * (elemWriteVals x e).getD i 0 =
      (fun j => if S j = true then 0 else w j * Y j)
        ((e.fdofs.map intDecode).getD i 0) := by
    intro i hi
    rw [Finset.mem_range] at hi
    rw [show subX.getD i 0 =
        (if S (intDecode (e.fdofs.getD i 0)) then 0
         else (getSub w e.fdofs).getD i 0) from by
      rw [hsubX]; exact map_range_getD _ _ _ hi]
    rw [getD_map_intDecode _ _ hi]
    by_cases hS : S (intDecode (e.fdofs.getD i 0)) = true
    · rw [if_pos hS]
      simp only [hS, if_true, zero_mul]
    · have hfalse : S (intDecode (e.fdofs.getD i 0)) = false := by
        cases h : S (intDecode (e.fdofs.getD i 0))
        · rfl
        · exact absurd h hS
      rw [if_neg hS]
      simp only [hfalse, Bool.false_eq_true, if_false]
      rw [getSub_getD w e.fdofs i hi, hY i hi, writeVal_eq_sgn]
      ring
  rw [Finset.sum_congr rfl step3]
  rw [show Finset.range e.fdofs.length =
      Finset.range (e.fdofs.map intDecode).length from by
    rw [List.length_map]]
  refine Eq.trans (sum_range_getD_toFinset (e.fdofs.map intDecode)
    (fun j => if S j = true then 0 else w j * Y j) hnd) ?_
  rw [Finset.sum_filter]
  refine Finset.sum_congr rfl fun j _ => ?_
  cases h : S j <;> simp [h]

lemma mark_eq_contains (e : RefElem) (i : Nat) :
    ((List.range e.fdofs.length).any fun p =>
      intDecode (e.fdofs.getD p 0) == i) =
    (e.fdofs.map intDecode).contains i := by
  rw [Bool.eq_iff_iff]
  simp only [List.any_eq_true, List.mem_range, beq_iff_eq]
  rw [List.elem_iff]
  constructor
  · rintro ⟨p, hp, hdec⟩
    rw [← hdec]
    exact List.mem_map_of_mem intDecode (getD_mem_of_lt e.fdofs p 0 hp)
  · intro hmem
    obtain ⟨d, hd, hdec⟩ := List.mem_map.mp hmem
    obtain ⟨n, hn, hnd⟩ := List.mem_iff_getElem.mp hd
    refine ⟨n, hn, ?_⟩
    rw [show e.fdofs.getD n 0 = e.fdofs[n] from by
      rw [List.getD_eq_getElem?_getD, List.getElem?_eq_getElem hn]; rfl,
      hnd, hdec]

lemma multT_fold_dot (x w : Nat → ℚ) (nfine ncoarse : Nat) (Y : Nat → ℚ) :
    ∀ (L : List RefElem),
      (∀ e ∈ L, ∀ p, p < e.fdofs.length →
        Y (intDecode (e.fdofs.getD p 0)) = writeVal x e p) →
      (∀ e ∈ L, (e.fdofs.map intDecode).Nodup) →
      (∀ e ∈ L, ∀ d ∈ e.fdofs, intDecode d < nfine) →
      (∀ e ∈ L, ∀ d ∈ e.cdofs, intDecode d < ncoarse) →
      ∀ (S : Nat → Bool) (y : Nat → ℚ),
        dot ncoarse x (L.foldl (multTStep w) (y, S)).1 =
          dot ncoarse x y +
          ∑ j ∈ (Finset.range nfine).filter
              (fun j => coveredByB L j = true ∧ S j = false),
            w j * Y j := by
  intro L
  induction L with
  | nil =>
    intro _ _ _ _ S y
    have hempty : (Finset.range nfine).filter
        (fun j => coveredByB [] j = true ∧ S j = false) = ∅ := by
      apply Finset.filter_false_of_mem
      intro j _ h
      simp [coveredByB] at h
    rw [List.foldl_nil, hempty, Finset.sum_empty, add_zero]
  | cons e L ih =>
    intro hY hnd hfb hcb S y
    rw [List.foldl_cons]
    have hstep := dot_multTStep w x ncoarse e y S Y
      (hY e (List.mem_cons_self e L)) (hnd e (List.mem_cons_self e L))
      (hcb e (List.mem_cons_self e L))
    have hihapp := ih (fun e' he' => hY e' (List.mem_cons_of_mem e he'))
      (fun e' he' => hnd e' (List.mem_cons_of_mem e he'))
      (fun e' he' => hfb e' (List.mem_cons_of_mem e he'))
      (fun e' he' => hcb e' (List.mem_cons_of_mem e he'))
      (multTStep w (y, S) e).2 (multTStep w (y, S) e).1
    rw [show L.foldl (multTStep w) (multTStep w (y, S) e) =
        L.foldl (multTStep w)
          ((multTStep w (y, S) e).1, (multTStep w (y, S) e).2) from rfl,
      hihapp, hstep, add_assoc]
    congr 1
    have hS' : ∀ j, (multTStep w (y, S) e).2 j =
        (S j || (e.fdofs.map intDecode).contains j) := by
      intro j
      show (S j || (List.range e.fdofs.length).any fun p =>
        intDecode (e.fdofs.getD p 0) == j) = _
      rw [mark_eq_contains]
    have hcov' : ∀ j, coveredByB (e :: L) j =
        ((e.fdofs.map intDecode).contains j || coveredByB L j) := by
      intro j
      unfold coveredByB
      rw [List.any_cons]
    have hA : (e.fdofs.map intDecode).toFinset.filter
        (fun j => S j = false) =
        (Finset.range nfine).filter
          (fun j => (e.fdofs.map intDecode).contains j = true ∧
            S j = false) := by
      ext j
      simp only [Finset.mem_filter, List.mem_toFinset, Finset.mem_range]
      constructor
      · rintro ⟨hmem, hSj⟩
        refine ⟨?_, List.elem_iff.mpr hmem, hSj⟩
        obtain ⟨d, hd, hdec⟩ := List.mem_map.mp hmem
        rw [← hdec]
        exact hfb e (List.mem_cons_self e L) d hd
      · rintro ⟨_, hcont, hSj⟩
        exact ⟨List.elem_iff.mp hcont, hSj⟩
    rw [hA, ← Finset.sum_union ?hdisj]
    case hdisj =>
      rw [Finset.disjoint_left]
      intro j hjA hjB
      rw [Finset.mem_filter] at hjA hjB
      have h1 := hjA.2.1
      have h2 := hjB.2.2
      rw [hS' j, h1, Bool.or_true] at h2
      exact absurd h2 (by decide)
    congr 1
    rw [← Finset.filter_or]
    refine Finset.filter_congr fun j _ => ?_
    rw [hS' j, hcov' j]
    cases hc : (e.fdofs.map intDecode).contains j <;>
      cases hl : coveredByB L j <;> cases hs : S j <;> simp

/-- C9: `RefinementOperator::MultTranspose` computes the exact
transpose of the linear map applied by `RefinementOperator::Mult`:
`⟨Mult x, w⟩ = ⟨x, MultTranspose w⟩`.  Each fine global DOF's value
contributes exactly once even when it is shared by several sibling
fine elements, because once a DOF is marked `processed` its slot is
zeroed in every later element's local vector.  Hypotheses: every fine
DOF belongs to some element and decodes below the fine size, each
element's fine DOFs decode to distinct globals, coarse DOFs decode
below the coarse size, and sibling elements write consistent values to
shared fine DOFs (the mesh-interpolation consistency `Mult` itself
relies on, its overwrites being order-dependent otherwise). -/
theorem refinementOperator_multTranspose_transposes
    (elems : List RefElem) (nfine ncoarse : Nat) (y0 x w : Nat → ℚ)
    (hnd : ∀ e ∈ elems, (e.fdofs.map intDecode).Nodup)
    (hfb : ∀ e ∈ elems, ∀ d ∈ e.fdofs, intDecode d < nfine)
    (hcb : ∀ e ∈ elems, ∀ d ∈ e.cdofs, intDecode d < ncoarse)
    (hcov : ∀ j, j < nfine → coveredByB elems j = true)
    (hagree : WriteConsistent elems) :
    dot nfine (RefinementMult elems x y0) w =
      dot ncoarse x (RefinementMultTranspose elems w) := by
  have hY := refinementMult_value x y0 elems hagree hnd
  unfold RefinementMultTranspose
  rw [multT_fold_dot x w nfine ncoarse (RefinementMult elems x y0) elems
    (fun e he p hp => hY e p he hp) hnd hfb hcb (fun _ => false)
    (fun _ => 0)]
  rw [Finset.filter_true_of_mem
    (fun j hj => ⟨hcov j (Finset.mem_range.mp hj), rfl⟩)]
  rw [show dot ncoarse x (fun _ => 0) = 0 from by simp [dot], zero_add]
  unfold dot
  refine Finset.sum_congr rfl fun j _ => ?_
  ring

/-- Witness for C9 on the one-element refinement with a sign-flipped
fine DOF, `nfine = 2`, `ncoarse = 1`. -/
theorem refinementOperator_multTranspose_transposes_witness :
    ((∀ e ∈ [testRefElem], (e.fdofs.map intDecode).Nodup) ∧
     (∀ e ∈ [testRefElem], ∀ d ∈ e.fdofs, intDecode d < 2) ∧
     (∀ e ∈ [testRefElem], ∀ d ∈ e.cdofs, intDecode d < 1) ∧
     (∀ j, j < 2 → coveredByB [testRefElem] j = true) ∧
     WriteConsistent [testRefElem]) ∧
    dot 2 (RefinementMult [testRefElem] (fun _ => 1) (fun _ => 0))
        (fun _ => 1) =
      dot 1 (fun _ => 1)
        (RefinementMultTranspose [testRefElem] (fun _ => 1)) := by
  have hnd : ∀ e ∈ [testRefElem], (e.fdofs.map intDecode).Nodup := by
    intro e he
    rw [List.mem_singleton] at he
    subst he
    decide
  have hfb : ∀ e ∈ [testRefElem], ∀ d ∈ e.fdofs, intDecode d < 2 := by
    intro e he
    rw [List.mem_singleton] at he
    subst he
    decide
  have hcb : ∀ e ∈ [testRefElem], ∀ d ∈ e.cdofs, intDecode d < 1 := by
    intro e he
    rw [List.mem_singleton] at he
    subst he
    decide
  have hcov : ∀ j, j < 2 → coveredByB [testRefElem] j = true := by
    intro j hj
    interval_cases j <;> decide
  have hagree : WriteConsistent [testRefElem] := by
    intro x e1 e2 p1 p2 h1 h2 hp1 hp2 hd
    rw [List.mem_singleton] at h1 h2
    subst h1
    subst h2
    have hl1 : p1 < 2 := hp1
    have hl2 : p2 < 2 := hp2
    interval_cases p1 <;> interval_cases p2 <;> first
      | rfl
      | (exfalso; revert hd; decide)
  exact ⟨⟨hnd, hfb, hcb, hcov, hagree⟩,
    refinementOperator_multTranspose_transposes [testRefElem] 2 1
      (fun _ => 0) (fun _ => 1) (fun _ => 1) hnd hfb hcb hcov hagree⟩

end MFEM
